import Mathlib

/-!
# Verification of the vaulthub Ansible-Vault codec

This file gives a shallow embedding, in Lean 4, of the cryptographic codec of
the vaulthub repository (`src/lib/vault/encrypt.ts`, `src/lib/vault/decrypt.ts`,
`src/lib/vault/constants.ts`, `src/lib/vault/utils.ts`) and proves the
specified properties of that code.

Modelling conventions:

* Byte strings (`Buffer` values in the TypeScript source) are `List Nat` with
  every element `< 256`.
* JavaScript strings are `List Char`.  All string data handled by the codec is
  ASCII except the plaintext itself; plaintext and password enter the codec as
  their UTF-8 byte sequences (the spec, section 4.6/4.7, types both operations
  over byte strings, and `Buffer.from(s, "utf8")` / `buf.toString("utf8")` are
  mutually inverse on valid Unicode data).
* Library primitives of the Node.js runtime (`crypto.pbkdf2`, `crypto.createHmac`,
  `crypto.createCipheriv("aes-256-ctr", ...)`, `crypto.timingSafeEqual`,
  `Buffer` hex codecs, `String.prototype` operations) are not repository code;
  each is modelled by an executable Lean definition whose doc comment states
  the contract being modelled.  SHA-256, HMAC-SHA256 and PBKDF2 are implemented
  for real (FIPS 180-4 / RFC 2104 / RFC 2898); the AES-256 block permutation
  inside the CTR engine is modelled by a fixed deterministic block function,
  since every claim depends only on the CTR structure (a keystream that is a
  pure function of key, IV and position, XORed with the input), which the spec
  (section 4.3) takes as the engine's contract.
-/

/-- All elements of a byte string are bytes. -/
def Bytes (l : List Nat) : Prop := ∀ b ∈ l, b < 256

instance : DecidablePred Bytes := fun l =>
  inferInstanceAs (Decidable (∀ b ∈ l, b < 256))

/-- Truncation to a 32-bit word. -/
def w32 (x : Nat) : Nat := x % 4294967296

/-- Big-endian encoding of `x` into `n` bytes (most significant first). -/
def toBytesBE : Nat → Nat → List Nat
  | 0, _ => []
  | n + 1, x => toBytesBE n (x / 256) ++ [x % 256]

/-- Big-endian interpretation of a byte string as a number. -/
def fromBytesBE (l : List Nat) : Nat := l.foldl (fun acc b => acc * 256 + b) 0

/-- 32-bit right rotation. -/
def rotr32 (n x : Nat) : Nat := w32 ((x >>> n) ||| (x <<< (32 - n)))

/-- 32-bit right shift. -/
def shr32 (n x : Nat) : Nat := x >>> n

/-- The SHA-256 round constants (FIPS 180-4, section 4.2.2). -/
def sha256K : List Nat :=
  [1116352408, 1899447441, 3049323471, 3921009573,
   961987163, 1508970993, 2453635748, 2870763221,
   3624381080, 310598401, 607225278, 1426881987,
   1925078388, 2162078206, 2614888103, 3248222580,
   3835390401, 4022224774, 264347078, 604807628,
   770255983, 1249150122, 1555081692, 1996064986,
   2554220882, 2821834349, 2952996808, 3210313671,
   3336571891, 3584528711, 113926993, 338241895,
   666307205, 773529912, 1294757372, 1396182291,
   1695183700, 1986661051, 2177026350, 2456956037,
   2730485921, 2820302411, 3259730800, 3345764771,
   3516065817, 3600352804, 4094571909, 275423344,
   430227734, 506948616, 659060556, 883997877,
   958139571, 1322822218, 1537002063, 1747873779,
   1955562222, 2024104815, 2227730452, 2361852424,
   2428436474, 2756734187, 3204031479, 3329325298]

/-- The SHA-256 initial hash value (FIPS 180-4, section 5.3.3). -/
def sha256H0 : List Nat :=
  [1779033703, 3144134277, 1013904242, 2773480762,
   1359893119, 2600822924, 528734635, 1541459225]

/-- Parse a 64-byte block into sixteen 32-bit big-endian words. -/
def sha256Words : List Nat → List Nat
  | a :: b :: c :: d :: rest =>
      (((a * 256 + b) * 256 + c) * 256 + d) :: sha256Words rest
  | _ => []

/-- Message-schedule extension step: given the reversed list of words produced
so far, compute the next word. -/
def sha256NextW (rev : List Nat) : Nat :=
  let wm2 := rev.getD 1 0
  let wm7 := rev.getD 6 0
  let wm15 := rev.getD 14 0
  let wm16 := rev.getD 15 0
  let s0 := (rotr32 7 wm15) ^^^ (rotr32 18 wm15) ^^^ (shr32 3 wm15)
  let s1 := (rotr32 17 wm2) ^^^ (rotr32 19 wm2) ^^^ (shr32 10 wm2)
  w32 (wm16 + s0 + wm7 + s1)

/-- The 64-word SHA-256 message schedule of one block (reversed-accumulator
construction). -/
def sha256Schedule (block : List Nat) : List Nat :=
  ((List.range 48).foldl (fun rev _ => sha256NextW rev :: rev)
    (sha256Words block).reverse).reverse

/-- One round of the SHA-256 compression loop.  The state is the 8-tuple
`[a,b,c,d,e,f,g,h]`; `kw` is `K_t + W_t`. -/
def sha256Round (st : List Nat) (kw : Nat) : List Nat :=
  let a := st.getD 0 0
  let b := st.getD 1 0
  let c := st.getD 2 0
  let d := st.getD 3 0
  let e := st.getD 4 0
  let f := st.getD 5 0
  let g := st.getD 6 0
  let h := st.getD 7 0
  let s1 := (rotr32 6 e) ^^^ (rotr32 11 e) ^^^ (rotr32 25 e)
  let ch := (e &&& f) ^^^ ((2^32 - 1 - e) &&& g)
  let t1 := w32 (h + s1 + ch + kw)
  let s0 := (rotr32 2 a) ^^^ (rotr32 13 a) ^^^ (rotr32 22 a)
  let mj := (a &&& b) ^^^ (a &&& c) ^^^ (b &&& c)
  let t2 := w32 (s0 + mj)
  [w32 (t1 + t2), a, b, c, w32 (d + t1), e, f, g]

/-- SHA-256 compression function: absorb one 64-byte block into the hash
state (eight 32-bit words). -/
def sha256Compress (h : List Nat) (block : List Nat) : List Nat :=
  let ws := sha256Schedule block
  let kws := List.zipWith (fun k w => w32 (k + w)) sha256K ws
  let st := kws.foldl sha256Round h
  List.zipWith (fun x y => w32 (x + y)) h st

/-- Split a byte string into 64-byte blocks. -/
def sha256Blocks (msg : List Nat) : List (List Nat) :=
  if msg.length ≤ 64 then [msg.take 64]
  else msg.take 64 :: sha256Blocks (msg.drop 64)
termination_by msg.length
decreasing_by simp; omega

/-- SHA-256 padding: append `0x80`, zeros, and the 64-bit big-endian bit
length, to a multiple of 64 bytes (FIPS 180-4, section 5.1.1). -/
def sha256Pad (msg : List Nat) : List Nat :=
  let len := msg.length
  let zeros := (119 - len % 64) % 64
  msg ++ [128] ++ List.replicate zeros 0 ++ toBytesBE 8 (len * 8)

/-- Serialize eight 32-bit words into 32 big-endian bytes. -/
def wordsToBytes (ws : List Nat) : List Nat := ws.flatMap (toBytesBE 4)

/-- SHA-256 of a byte string (FIPS 180-4).  Models the Node.js `crypto`
`sha256` hash primitive. -/
def sha256 (msg : List Nat) : List Nat :=
  wordsToBytes ((sha256Blocks (sha256Pad msg)).foldl sha256Compress sha256H0)

/-- HMAC-SHA256 (RFC 2104).  Models `crypto.createHmac("sha256", key)`. -/
def hmacSha256 (key msg : List Nat) : List Nat :=
  let k0 := if 64 < key.length then sha256 key else key
  let kp := k0 ++ List.replicate (64 - k0.length) 0
  let ipad := kp.map (fun b => b ^^^ 54)
  let opad := kp.map (fun b => b ^^^ 92)
  sha256 (opad ++ sha256 (ipad ++ msg))

/-- One PBKDF2 block `F(pw, salt, c, i)`: `c`-fold iterated HMAC, XOR-folded
(RFC 2898, section 5.2). -/
def pbkdf2Block (prf : List Nat → List Nat → List Nat)
    (pw salt : List Nat) (c i : Nat) : List Nat :=
  let u1 := prf pw (salt ++ toBytesBE 4 i)
  let rec go : Nat → List Nat → List Nat → List Nat
    | 0, _, acc => acc
    | n + 1, u, acc =>
        let u' := prf pw u
        go n u' (List.zipWith Nat.xor acc u')
  go (c - 1) u1 u1

/-- PBKDF2 (RFC 2898) over an arbitrary pseudorandom function `prf` producing
`hLen`-byte outputs: concatenate blocks `F(.., 1), F(.., 2), ...` and truncate
to `dkLen` bytes.  Models `crypto.pbkdf2`. -/
def pbkdf2 (prf : List Nat → List Nat → List Nat) (hLen : Nat)
    (pw salt : List Nat) (c dkLen : Nat) : List Nat :=
  (((List.range ((dkLen + hLen - 1) / hLen)).map
      (fun j => pbkdf2Block prf pw salt c (j + 1))).flatten).take dkLen

-- Constants from `src/lib/vault/constants.ts`.

/-- `VAULT_HEADER` from `constants.ts`. -/
def VAULT_HEADER : List Char := "$ANSIBLE_VAULT".toList

/-- `VAULT_VERSION` from `constants.ts`. -/
def VAULT_VERSION : List Char := "1.1".toList

/-- `VAULT_CIPHER` from `constants.ts`. -/
def VAULT_CIPHER : List Char := "AES256".toList

/-- `PBKDF2_ITERATIONS` from `constants.ts`. -/
def PBKDF2_ITERATIONS : Nat := 10000

/-- `KEY_LENGTH` from `constants.ts`. -/
def KEY_LENGTH : Nat := 32

/-- `IV_LENGTH` from `constants.ts`. -/
def IV_LENGTH : Nat := 16

/-- `SALT_LENGTH` from `constants.ts`. -/
def SALT_LENGTH : Nat := 32

/-- `HMAC_LENGTH` from `constants.ts`. -/
def HMAC_LENGTH : Nat := 32

/-- The derived key material, as in `utils.ts` (`deriveKeys` return shape). -/
structure DerivedKeys where
  encryptionKey : List Nat
  hmacKey : List Nat
  iv : List Nat
deriving DecidableEq, Repr

/-- `deriveKeys` from `src/lib/vault/utils.ts`: PBKDF2-HMAC-SHA256 with
`PBKDF2_ITERATIONS` iterations requesting
`KEY_LENGTH + HMAC_LENGTH + IV_LENGTH` bytes, split into encryption key,
HMAC key and IV.  The password enters as its UTF-8 bytes (Node's
`crypto.pbkdf2` encodes string passwords as UTF-8). -/
def deriveKeys (password salt : List Nat) : DerivedKeys :=
  let derivedKey :=
    pbkdf2 hmacSha256 32 password salt PBKDF2_ITERATIONS
      (KEY_LENGTH + HMAC_LENGTH + IV_LENGTH)
  { encryptionKey := derivedKey.take KEY_LENGTH
    hmacKey := (derivedKey.drop KEY_LENGTH).take HMAC_LENGTH
    iv := (derivedKey.drop (KEY_LENGTH + HMAC_LENGTH)).take IV_LENGTH }

/-- Modelled from the spec: the AES-256 block permutation inside Node's
`createCipheriv("aes-256-ctr", key, iv)` is an external library primitive
(spec section 4.3 treats the cipher engine as a library call with the contract
that it is a fixed deterministic function of key and counter block).  It is
modelled as a fixed deterministic 16-byte block function built from the
SHA-256 model; no claim depends on the concrete permutation, only on the CTR
structure around it. -/
def aesBlockModel (key counterBlock : List Nat) : List Nat :=
  (sha256 (key ++ counterBlock)).take 16

/-- The `i`-th CTR counter block: the IV interpreted as a 128-bit big-endian
counter, incremented by `i` modulo `2^128`. -/
def ctrCounterBlock (iv : List Nat) (i : Nat) : List Nat :=
  toBytesBE 16 ((fromBytesBE iv + i) % 2 ^ 128)

/-- The first `n` bytes of the CTR keystream for `(key, iv)`. -/
def ctrKeystream (key iv : List Nat) (n : Nat) : List Nat :=
  (((List.range ((n + 15) / 16)).map
      (fun i => aesBlockModel key (ctrCounterBlock iv i))).flatten).take n

/-- AES-256-CTR as used through `createCipheriv`/`createDecipheriv` in the
source: XOR the input with the keystream.  A single self-inverse transform
serves both encryption and decryption (spec section 4.3). -/
def aesCtrTransform (key iv input : List Nat) : List Nat :=
  List.zipWith Nat.xor input (ctrKeystream key iv input.length)

/-- `pkcs7Pad` from `src/lib/vault/encrypt.ts`: append `padLength` bytes of
value `padLength` where `padLength = 16 - (data.length % 16)`. -/
def pkcs7Pad (data : List Nat) : List Nat :=
  let blockSize := 16
  let padLength := blockSize - data.length % blockSize
  data ++ List.replicate padLength padLength

/-- `pkcs7Unpad` from `src/lib/vault/decrypt.ts`: validate and strip PKCS#7
padding; the source's index loop checking `buf[i] === padLen` for
`i ∈ [buf.length - padLen, buf.length)` is rendered as a check that the final
`padLen` bytes all equal `padLen`. -/
def pkcs7Unpad (buf : List Nat) : Except (List Char) (List Nat) :=
  if buf.isEmpty then
    Except.error "Invalid padding: empty buffer".toList
  else
    let padLen := buf.getLastD 0
    if padLen < 1 ∨ 16 < padLen then
      Except.error "Invalid padding: pad byte out of range".toList
    else if buf.length < padLen then
      Except.error "Invalid padding: buffer too short".toList
    else if (buf.drop (buf.length - padLen)).all (fun b => b = padLen) then
      Except.ok (buf.take (buf.length - padLen))
    else
      Except.error "Invalid padding: incorrect padding bytes".toList

-- String and hex utilities (models of the JavaScript / Node primitives used
-- by the codec).

/-- Modelled from the JavaScript whitespace class: `String.prototype.trim` and
the regexp class `\s` both match the WhiteSpace and LineTerminator productions
(tab, LF, VT, FF, CR, space, NBSP, BOM, and the Unicode space separators). -/
def isJsWs (c : Char) : Bool :=
  decide (c.toNat = 9 ∨ c.toNat = 10 ∨ c.toNat = 11 ∨ c.toNat = 12 ∨
    c.toNat = 13 ∨ c.toNat = 32 ∨ c.toNat = 160 ∨ c.toNat = 5760 ∨
    (8192 ≤ c.toNat ∧ c.toNat ≤ 8202) ∨ c.toNat = 8232 ∨ c.toNat = 8233 ∨
    c.toNat = 8239 ∨ c.toNat = 8287 ∨ c.toNat = 12288 ∨ c.toNat = 65279)

/-- `String.prototype.trim`: drop leading and trailing whitespace. -/
def jsTrim (l : List Char) : List Char :=
  ((l.dropWhile isJsWs).reverse.dropWhile isJsWs).reverse

/-- `String.prototype.split` on a one-character separator (JavaScript
semantics: splitting the empty string yields one empty part). -/
def splitSep {α : Type} [DecidableEq α] (sep : α) : List α → List (List α)
  | [] => [[]]
  | a :: rest =>
    if a = sep then [] :: splitSep sep rest
    else
      match splitSep sep rest with
      | h :: t => (a :: h) :: t
      | [] => [[a]]

/-- `Array.prototype.join` with a one-character separator. -/
def joinSep {α : Type} (sep : α) : List (List α) → List α
  | [] => []
  | [x] => x
  | x :: xs => x ++ sep :: joinSep sep xs

/-- Hex digit characters, as produced by `Buffer.prototype.toString("hex")`
(lowercase). -/
def hexDigitChar (n : Nat) : Char :=
  "0123456789abcdef".toList.getD n '0'

/-- `Buffer.prototype.toString("hex")`: two lowercase hex digits per byte,
high nibble first. -/
def hexEncode (bs : List Nat) : List Char :=
  bs.flatMap (fun b => [hexDigitChar (b / 16), hexDigitChar (b % 16)])

/-- The character class `[0-9a-fA-F]`. -/
def isHexChar (c : Char) : Bool :=
  decide ((48 ≤ c.toNat ∧ c.toNat ≤ 57) ∨ (97 ≤ c.toNat ∧ c.toNat ≤ 102) ∨
    (65 ≤ c.toNat ∧ c.toNat ≤ 70))

/-- Numeric value of a hex digit character. -/
def hexCharVal (c : Char) : Nat :=
  if 48 ≤ c.toNat ∧ c.toNat ≤ 57 then c.toNat - 48
  else if 97 ≤ c.toNat ∧ c.toNat ≤ 102 then c.toNat - 87
  else if 65 ≤ c.toNat ∧ c.toNat ≤ 70 then c.toNat - 55
  else 0

/-- `Buffer.from(str, "hex")`: decode hex digit pairs into bytes, stopping at
the first invalid pair and silently discarding a trailing unpaired digit
(Node.js semantics). -/
def hexDecodePairsC : List Char → List Nat
  | a :: b :: rest =>
    if isHexChar a ∧ isHexChar b then
      (16 * hexCharVal a + hexCharVal b) :: hexDecodePairsC rest
    else []
  | _ => []

/-- The ASCII-byte form of the class `[0-9a-fA-F]`. -/
def isHexByte (b : Nat) : Bool :=
  decide ((48 ≤ b ∧ b ≤ 57) ∨ (97 ≤ b ∧ b ≤ 102) ∨ (65 ≤ b ∧ b ≤ 70))

/-- Numeric value of a hex digit given as an ASCII byte. -/
def hexByteVal (b : Nat) : Nat :=
  if 48 ≤ b ∧ b ≤ 57 then b - 48
  else if 97 ≤ b ∧ b ≤ 102 then b - 87
  else if 65 ≤ b ∧ b ≤ 70 then b - 55
  else 0

/-- `Buffer.from(str, "hex")` applied to a string held as ASCII bytes. -/
def hexDecodePairsB : List Nat → List Nat
  | a :: b :: rest =>
    if isHexByte a ∧ isHexByte b then
      (16 * hexByteVal a + hexByteVal b) :: hexDecodePairsB rest
    else []
  | _ => []

/-- `Buffer.from(str, "utf8")` restricted to the ASCII strings the codec
serializes (hex digits and newlines): byte `i` is the code of character `i`. -/
def asciiBytes (l : List Char) : List Nat := l.map Char.toNat

/-- Split a list into chunks of 80 elements: the `for (i = 0; i < len; i += 80)
… slice(i, i + 80)` loop of `formatVaultData`. -/
def chunks80 {α : Type} (l : List α) : List (List α) :=
  if l.isEmpty then [] else l.take 80 :: chunks80 (l.drop 80)
termination_by l.length
decreasing_by
  rename_i h
  simp [List.isEmpty_iff] at h
  simp [List.length_drop]
  cases l with
  | nil => exact absurd rfl h
  | cons a t => simp

/-- `formatVaultData` from `src/lib/vault/encrypt.ts`: hex-encode salt, hmac
and ciphertext individually, join with newlines, hex-encode the joined string
a second time, and wrap under the header in 80-character lines. -/
def formatVaultData (salt hmac ciphertext : List Nat) : List Char :=
  let header := VAULT_HEADER ++ [';'] ++ VAULT_VERSION ++ [';'] ++ VAULT_CIPHER
  let saltHex := hexEncode salt
  let hmacHex := hexEncode hmac
  let ciphertextHex := hexEncode ciphertext
  let innerPayload := saltHex ++ '\n' :: hmacHex ++ '\n' :: ciphertextHex
  let hexData := hexEncode (asciiBytes innerPayload)
  joinSep '\n' (header :: chunks80 hexData)

/-- `encryptVaultString` from `src/lib/vault/encrypt.ts`.  The fresh random
salt drawn by `randomBytes(SALT_LENGTH)` is passed in explicitly so that the
theorems can quantify over every value the generator may produce; plaintext
and password are the UTF-8 bytes of the caller's strings.  Errors carry the
thrown `Error`'s message. -/
def encryptVaultString (salt plainText password : List Nat) :
    Except (List Char) (List Char) :=
  if plainText.isEmpty then
    Except.error "Plain text must be a non-empty string".toList
  else if password.isEmpty then
    Except.error "Password must be a non-empty string".toList
  else
    let keys := deriveKeys password salt
    let paddedPlaintext := pkcs7Pad plainText
    let ciphertext := aesCtrTransform keys.encryptionKey keys.iv paddedPlaintext
    let hmacDigest := hmacSha256 keys.hmacKey ciphertext
    Except.ok (formatVaultData salt hmacDigest ciphertext)

-- Error messages of `parseVaultData` (decrypt.ts).

/-- Message "Invalid vault format: too short". -/
def msgTooShort : List Char := "Invalid vault format: too short".toList

/-- Message for a bad header; interpolates the raw (unnormalized) first
line, as the source's template literal does. -/
def msgBadHeader (header : List Char) : List Char :=
  "Invalid vault format: expected \"$ANSIBLE_VAULT;1.1;AES256\", got \"".toList
    ++ header ++ "\"".toList

/-- Message "Invalid vault format: contains non-hexadecimal characters". -/
def msgNonHex : List Char :=
  "Invalid vault format: contains non-hexadecimal characters".toList

/-- Message for a wrong inner part count. -/
def msgPartCount : List Char :=
  "Invalid vault format: expected exactly salt, hmac, and ciphertext separated by newlines".toList

/-- Message "Invalid vault format: components contain non-hexadecimal characters". -/
def msgCompNonHex : List Char :=
  "Invalid vault format: components contain non-hexadecimal characters".toList

/-- Message for a wrong salt length; interpolates the actual length. -/
def msgSaltLen (n : Nat) : List Char :=
  "Invalid vault format: salt should be 32 bytes, got ".toList ++ (Nat.repr n).toList

/-- Message for a wrong HMAC length; interpolates the actual length. -/
def msgHmacLen (n : Nat) : List Char :=
  "Invalid vault format: HMAC should be 32 bytes, got ".toList ++ (Nat.repr n).toList

/-- Message "Invalid vault format: ciphertext is empty". -/
def msgCtEmpty : List Char := "Invalid vault format: ciphertext is empty".toList

/-- The expected header line `$ANSIBLE_VAULT;1.1;AES256`. -/
def expectedHeader : List Char :=
  VAULT_HEADER ++ [';'] ++ VAULT_VERSION ++ [';'] ++ VAULT_CIPHER

/-- The header normalization of `parseVaultData`:
`header.replace(/\r/g, "").trim()`. -/
def normalizeHeader (header : List Char) : List Char :=
  jsTrim (header.filter (fun c => c ≠ '\r'))

/-- `parseVaultData` from `src/lib/vault/decrypt.ts`.

The inner payload produced by `Buffer.from(hexData, "hex").toString("utf8")`
is a JavaScript string; it is modelled here directly by the decoded byte list.
This is faithful step for step: under WHATWG lossy UTF-8 decoding (which Node
uses) an ASCII byte is never consumed into a multi-byte sequence (all
non-initial bytes of any decoded unit lie in `0x80-0xBF`), so byte `0x0A`
corresponds one-to-one to the character `"\n"` — `split("\n")` on the decoded
string splits exactly where `splitSep 10` splits the bytes — and a part passes
the character test `/^[0-9a-fA-F]*$/` exactly when all its bytes are ASCII hex
digits (any byte `≥ 0x80` yields a non-ASCII or replacement character, which
is not a hex digit). -/
def parseVaultData (encryptedText : List Char) :
    Except (List Char) (List Nat × List Nat × List Nat) :=
  let trimmed := jsTrim encryptedText
  let lines := splitSep '\n' trimmed
  if lines.length < 2 then
    Except.error msgTooShort
  else
    let header := lines.getD 0 []
    if normalizeHeader header ≠ expectedHeader then
      Except.error (msgBadHeader header)
    else
      let hexData := ((lines.drop 1).flatten).filter (fun c => !(isJsWs c))
      if ¬ (¬ hexData.isEmpty ∧ hexData.all isHexChar) then
        Except.error msgNonHex
      else
        let innerPayload := hexDecodePairsC hexData
        let parts := splitSep 10 innerPayload
        if parts.length ≠ 3 then
          Except.error msgPartCount
        else
          let saltHex := parts.getD 0 []
          let hmacHex := parts.getD 1 []
          let ciphertextHex := parts.getD 2 []
          if ¬ (saltHex.all isHexByte ∧ hmacHex.all isHexByte ∧
                ciphertextHex.all isHexByte) then
            Except.error msgCompNonHex
          else
            let salt := hexDecodePairsB saltHex
            let hmac := hexDecodePairsB hmacHex
            let ciphertext := hexDecodePairsB ciphertextHex
            if salt.length ≠ SALT_LENGTH then
              Except.error (msgSaltLen salt.length)
            else if hmac.length ≠ HMAC_LENGTH then
              Except.error (msgHmacLen hmac.length)
            else if ciphertext.isEmpty then
              Except.error msgCtEmpty
            else
              Except.ok (salt, hmac, ciphertext)

/-- Modelled from the spec: Node's `crypto.timingSafeEqual` is an external
constant-time equality primitive (spec section 4.4 requires "a dedicated
constant-time equality primitive", never a short-circuiting comparison).  It
is modelled with an instrumented cost semantics: the Boolean result is the
OR-accumulation of the bytewise XORs (the classic constant-time comparison
loop, no early exit), and the cost counts the loop steps executed, which is
always the full shared length.  It throws on unequal lengths; `verifyHmac`
never reaches it in that case. -/
def timingSafeEqualModel (a b : List Nat) : Bool × Nat :=
  let diffs := List.zipWith Nat.xor a b
  (diffs.foldl Nat.lor 0 == 0, diffs.length)

/-- `verifyHmac` from `src/lib/vault/decrypt.ts`: length check first, then
the constant-time comparison. -/
def verifyHmac (expectedHmac actualHmac : List Nat) : Bool :=
  if expectedHmac.length ≠ actualHmac.length then false
  else (timingSafeEqualModel expectedHmac actualHmac).1

/-- The sanitized message thrown by `decryptVaultString` for authentication
and padding failures. -/
def msgDecryptFailed : List Char :=
  "Unable to decrypt content. Please check the password and format.".toList

/-- The raw message thrown on HMAC mismatch, before sanitization. -/
def msgHmacFailed : List Char :=
  "HMAC verification failed: incorrect password or corrupted data".toList

/-- Whether `needle` occurs at the head of `hay`. -/
def startsWithChars : List Char → List Char → Bool
  | [], _ => true
  | _ :: _, [] => false
  | a :: ns, b :: hs => a = b && startsWithChars ns hs

/-- `String.prototype.includes`: `containsSub hay needle` is
`hay.includes(needle)`. -/
def containsSub (hay needle : List Char) : Bool :=
  match hay with
  | [] => needle.isEmpty
  | _ :: rest => startsWithChars needle hay || containsSub rest needle

/-- The body of the `try` block of `decryptVaultString`, with the cipher
engine abstracted as a parameter (`decryptVaultString` instantiates it with
`aesCtrTransform`; the abstraction lets theorems state that on an HMAC
mismatch the result is the same for every cipher, i.e. the cipher is never
invoked).  Raw (unsanitized) error messages. -/
def decryptVaultRawWith (cipher : List Nat → List Nat → List Nat → List Nat)
    (encryptedText : List Char) (password : List Nat) :
    Except (List Char) (List Nat) :=
  if encryptedText.isEmpty then
    Except.error "Encrypted text must be a non-empty string".toList
  else if password.isEmpty then
    Except.error "Password must be a non-empty string".toList
  else
    match parseVaultData encryptedText with
    | Except.error e => Except.error e
    | Except.ok (salt, storedHmac, ciphertext) =>
      let keys := deriveKeys password salt
      let computedHmac := hmacSha256 keys.hmacKey ciphertext
      if ¬ verifyHmac storedHmac computedHmac then
        Except.error msgHmacFailed
      else
        let paddedPlaintext := cipher keys.encryptionKey keys.iv ciphertext
        match pkcs7Unpad paddedPlaintext with
        | Except.error e => Except.error e
        | Except.ok plaintext => Except.ok plaintext

/-- The `catch` block of `decryptVaultString`: sanitize error messages by the
source's `includes` dispatch. -/
def sanitizeDecryptError (m : List Char) : List Char :=
  if containsSub m "HMAC verification failed".toList then msgDecryptFailed
  else if containsSub m "Invalid vault format".toList then m
  else if containsSub m "string".toList then m
  else if containsSub m "Invalid padding".toList then msgDecryptFailed
  else msgDecryptFailed

/-- `decryptVaultString` from `src/lib/vault/decrypt.ts`, with the cipher
engine abstracted. -/
def decryptVaultStringWith
    (cipher : List Nat → List Nat → List Nat → List Nat)
    (encryptedText : List Char) (password : List Nat) :
    Except (List Char) (List Nat) :=
  match decryptVaultRawWith cipher encryptedText password with
  | Except.ok plaintext => Except.ok plaintext
  | Except.error m => Except.error (sanitizeDecryptError m)

/-- `decryptVaultString` from `src/lib/vault/decrypt.ts`: parse, derive keys,
verify the HMAC over the ciphertext, decrypt with AES-256-CTR, strip PKCS#7
padding; sanitize errors.  The returned plaintext is the UTF-8 byte string
the source converts back to a string with `toString("utf8")`. -/
def decryptVaultString (encryptedText : List Char) (password : List Nat) :
    Except (List Char) (List Nat) :=
  decryptVaultStringWith aesCtrTransform encryptedText password

deriving instance DecidableEq for Except

/-- Map a function over all entries but the last. -/
def mapInit {α : Type} (f : α → α) : List α → List α
  | [] => []
  | [x] => [x]
  | x :: xs => f x :: mapInit f xs

/-- Map a function over the last entry only. -/
def mapLast {α : Type} (f : α → α) : List α → List α
  | [] => []
  | [x] => [f x]
  | x :: xs => x :: mapLast f xs

/-- All characters of a list are JavaScript whitespace. -/
def AllWs (l : List Char) : Prop := ∀ c ∈ l, isJsWs c = true

instance : DecidablePred AllWs := fun l =>
  inferInstanceAs (Decidable (∀ c ∈ l, isJsWs c = true))

/-- The double-hex body of an envelope for the three components. -/
def innerAscii (salt tag ct : List Nat) : List Nat :=
  asciiBytes (hexEncode salt ++ '\n' :: hexEncode tag ++ '\n' :: hexEncode ct)

/-- The wrapped second-level hex data of an envelope. -/
def bodyHexData (salt tag ct : List Nat) : List Char :=
  hexEncode (innerAscii salt tag ct)

/-- The header-and-body line list of a formatted envelope. -/
def envLines (salt tag ct : List Nat) : List (List Char) :=
  expectedHeader :: chunks80 (bodyHexData salt tag ct)

/-- The ciphertext computed by `encryptVaultString` for a given salt,
plaintext and password. -/
def encCiphertext (salt pt pw : List Nat) : List Nat :=
  aesCtrTransform (deriveKeys pw salt).encryptionKey (deriveKeys pw salt).iv
    (pkcs7Pad pt)

/-- The authentication tag computed by `encryptVaultString`. -/
def encTag (salt pt pw : List Nat) : List Nat :=
  hmacSha256 (deriveKeys pw salt).hmacKey (encCiphertext salt pt pw)

/-- Lowercase hex digits, the alphabet of envelope body lines. -/
def isLowerHexChar (c : Char) : Bool :=
  decide ((48 ≤ c.toNat ∧ c.toNat ≤ 57) ∨ (97 ≤ c.toNat ∧ c.toNat ≤ 102))

-- Characterization of parseVaultData (C3 and support for C10).

/-- The newline-split lines of the trimmed input, as computed by
`parseVaultData`. -/
def parseLines (input : List Char) : List (List Char) :=
  splitSep '\n' (jsTrim input)

/-- The whitespace-stripped joined body hex string of `parseVaultData`. -/
def parseHexData (input : List Char) : List Char :=
  (((parseLines input).drop 1).flatten).filter (fun c => !(isJsWs c))

/-- The newline-split parts of the hex-decoded inner payload of
`parseVaultData`. -/
def parseParts (input : List Char) : List (List Nat) :=
  splitSep 10 (hexDecodePairsC (parseHexData input))

/-- All conditions under which `parseVaultData` succeeds: at least 2 lines
after trimming; normalized first line equal to the expected header; the
joined body nonempty and all hex digits; exactly 3 newline-separated inner
parts; each part all hex digits; decoded salt exactly 32 bytes; decoded tag
exactly 32 bytes; decoded ciphertext non-empty. -/
def VaultWellFormed (input : List Char) : Prop :=
  2 ≤ (parseLines input).length ∧
  normalizeHeader ((parseLines input).getD 0 []) = expectedHeader ∧
  parseHexData input ≠ [] ∧
  (∀ ch ∈ parseHexData input, isHexChar ch = true) ∧
  (parseParts input).length = 3 ∧
  (∀ b ∈ (parseParts input).getD 0 [], isHexByte b = true) ∧
  (∀ b ∈ (parseParts input).getD 1 [], isHexByte b = true) ∧
  (∀ b ∈ (parseParts input).getD 2 [], isHexByte b = true) ∧
  (hexDecodePairsB ((parseParts input).getD 0 [])).length = 32 ∧
  (hexDecodePairsB ((parseParts input).getD 1 [])).length = 32 ∧
  hexDecodePairsB ((parseParts input).getD 2 []) ≠ []

-- CRLF and whitespace tolerance (C9).

/-- Replace every `"\n"` by `"\r\n"`, the transform of spec property 5. -/
def crlfify : List Char → List Char
  | [] => []
  | c :: rest =>
    if c = '\n' then '\r' :: '\n' :: crlfify rest else c :: crlfify rest

theorem toBytesBE_length (n x : Nat) : (toBytesBE n x).length = n := by
  induction n generalizing x with
  | zero => rfl
  | succ n ih => simp [toBytesBE, ih]

theorem toBytesBE_bytes (n x : Nat) : Bytes (toBytesBE n x) := by
  induction n generalizing x with
  | zero => intro b hb; simp [toBytesBE] at hb
  | succ n ih =>
    intro b hb
    simp only [toBytesBE, List.mem_append, List.mem_singleton] at hb
    rcases hb with h | h
    · exact ih _ b h
    · subst h; exact Nat.mod_lt _ (by omega)

-- Basic facts about bytes, XOR and the hash models.

theorem xor_byte_lt {a b : Nat} (ha : a < 256) (hb : b < 256) : a ^^^ b < 256 := by
  have ha8 : a < 2 ^ 8 := ha
  have hb8 : b < 2 ^ 8 := hb
  exact Nat.xor_lt_two_pow ha8 hb8

theorem zipWith_xor_bytes {a b : List Nat} (ha : Bytes a) (hb : Bytes b) :
    Bytes (List.zipWith Nat.xor a b) := by
  intro x hx
  rw [List.mem_iff_get] at hx
  obtain ⟨i, hi⟩ := hx
  rw [List.get_eq_getElem, List.getElem_zipWith] at hi
  subst hi
  refine xor_byte_lt (ha _ (List.get_mem ..)) (hb _ (List.get_mem ..))

theorem zipWith_xor_cancel {x ks : List Nat} (h : x.length ≤ ks.length) :
    List.zipWith Nat.xor (List.zipWith Nat.xor x ks) ks = x := by
  induction x generalizing ks with
  | nil => simp
  | cons a t ih =>
    cases ks with
    | nil => simp at h
    | cons k kt =>
      simp only [List.zipWith_cons_cons, List.cons.injEq]
      constructor
      · show (a ^^^ k) ^^^ k = a
        rw [Nat.xor_assoc, Nat.xor_self, Nat.xor_zero]
      · exact ih (by simpa using h)

theorem wordsToBytes_length (ws : List Nat) :
    (wordsToBytes ws).length = 4 * ws.length := by
  induction ws with
  | nil => rfl
  | cons w t ih =>
    simp only [wordsToBytes, List.flatMap_cons, List.length_append] at *
    rw [ih]
    simp [toBytesBE_length]
    omega

theorem wordsToBytes_bytes (ws : List Nat) : Bytes (wordsToBytes ws) := by
  intro b hb
  simp only [wordsToBytes, List.mem_flatMap] at hb
  obtain ⟨w, _, hw⟩ := hb
  exact toBytesBE_bytes 4 w b hw

theorem sha256Round_length (st : List Nat) (kw : Nat) :
    (sha256Round st kw).length = 8 := rfl

theorem foldl_sha256Round_length (l : List Nat) (h : List Nat) (hl : l ≠ []) :
    (l.foldl sha256Round h).length = 8 := by
  induction l generalizing h with
  | nil => exact absurd rfl hl
  | cons k t ih =>
    cases t with
    | nil => simp [sha256Round_length]
    | cons k' t' => exact ih _ (by simp)

theorem sha256Schedule_ne_nil (block : List Nat) : sha256Schedule block ≠ [] := by
  have key : ∀ (n : Nat) (acc : List Nat),
      ((List.range n).foldl (fun rev _ => sha256NextW rev :: rev) acc).length
        = n + acc.length := by
    intro n
    induction n with
    | zero => simp
    | succ m ih =>
      intro acc
      rw [List.range_succ, List.foldl_append]
      simp [ih]
      omega
  intro hnil
  have hlen := congrArg List.length hnil
  simp only [sha256Schedule, List.length_reverse, List.length_nil] at hlen
  rw [key] at hlen
  omega

theorem zipWith_ne_nil {α β γ : Type} (f : α → β → γ) (a : List α)
    (b : List β) (ha : a ≠ []) (hb : b ≠ []) : List.zipWith f a b ≠ [] := by
  cases a with
  | nil => exact absurd rfl ha
  | cons x xs =>
    cases b with
    | nil => exact absurd rfl hb
    | cons y ys => simp

theorem sha256Compress_length (h block : List Nat) (hh : h.length = 8) :
    (sha256Compress h block).length = 8 := by
  have hker : (List.zipWith (fun k w => w32 (k + w)) sha256K
      (sha256Schedule block)) ≠ [] := by
    refine zipWith_ne_nil _ _ _ (by decide) (sha256Schedule_ne_nil block)
  simp only [sha256Compress, List.length_zipWith, hh]
  rw [foldl_sha256Round_length _ _ hker]
  simp

theorem foldl_sha256Compress_length (bs : List (List Nat)) (h : List Nat)
    (hh : h.length = 8) : (bs.foldl sha256Compress h).length = 8 := by
  induction bs generalizing h with
  | nil => exact hh
  | cons b t ih => exact ih _ (sha256Compress_length h b hh)

theorem sha256_length (msg : List Nat) : (sha256 msg).length = 32 := by
  simp only [sha256]
  rw [wordsToBytes_length, foldl_sha256Compress_length _ _ (by rfl)]

theorem sha256_bytes (msg : List Nat) : Bytes (sha256 msg) :=
  wordsToBytes_bytes _

theorem hmacSha256_length (key msg : List Nat) :
    (hmacSha256 key msg).length = 32 := sha256_length _

theorem hmacSha256_bytes (key msg : List Nat) : Bytes (hmacSha256 key msg) :=
  sha256_bytes _

theorem pbkdf2Block_go_length (pw : List Nat) (n : Nat) (u acc : List Nat)
    (hacc : acc.length = 32) :
    (pbkdf2Block.go hmacSha256 pw n u acc).length = 32 := by
  induction n generalizing u acc with
  | zero => exact hacc
  | succ m ih =>
    simp only [pbkdf2Block.go]
    exact ih _ _ (by simp [List.length_zipWith, hacc, hmacSha256_length])

theorem pbkdf2Block_length (pw salt : List Nat) (c i : Nat) :
    (pbkdf2Block hmacSha256 pw salt c i).length = 32 :=
  pbkdf2Block_go_length pw _ _ _ (hmacSha256_length ..)

theorem pbkdf2Block_go_bytes (pw : List Nat) (n : Nat) (u acc : List Nat)
    (hacc : Bytes acc) :
    Bytes (pbkdf2Block.go hmacSha256 pw n u acc) := by
  induction n generalizing u acc with
  | zero => exact hacc
  | succ m ih =>
    simp only [pbkdf2Block.go]
    exact ih _ _ (zipWith_xor_bytes hacc (hmacSha256_bytes _ _))

theorem pbkdf2Block_bytes (pw salt : List Nat) (c i : Nat) :
    Bytes (pbkdf2Block hmacSha256 pw salt c i) :=
  pbkdf2Block_go_bytes pw _ _ _ (hmacSha256_bytes _ _)

theorem flatten_length_const {α : Type} (L : List (List α)) (k : Nat)
    (h : ∀ l ∈ L, l.length = k) : L.flatten.length = L.length * k := by
  induction L with
  | nil => simp
  | cons x t ih =>
    simp only [List.flatten_cons, List.length_append, List.length_cons]
    rw [h x (by simp), ih (fun l hl => h l (by simp [hl]))]
    ring

theorem pbkdf2_length (pw salt : List Nat) (c dkLen : Nat) :
    (pbkdf2 hmacSha256 32 pw salt c dkLen).length = dkLen := by
  simp only [pbkdf2, List.length_take]
  rw [flatten_length_const _ 32 (by
    intro l hl
    simp only [List.mem_map] at hl
    obtain ⟨j, _, rfl⟩ := hl
    exact pbkdf2Block_length ..)]
  simp only [List.length_map, List.length_range]
  omega

theorem pbkdf2_bytes (pw salt : List Nat) (c dkLen : Nat) :
    Bytes (pbkdf2 hmacSha256 32 pw salt c dkLen) := by
  intro b hb
  simp only [pbkdf2] at hb
  have hb' := List.mem_of_mem_take hb
  rw [List.mem_flatten] at hb'
  obtain ⟨l, hl, hbl⟩ := hb'
  simp only [List.mem_map] at hl
  obtain ⟨j, _, rfl⟩ := hl
  exact pbkdf2Block_bytes pw salt c (j + 1) b hbl

theorem deriveKeys_lengths (password salt : List Nat) :
    (deriveKeys password salt).encryptionKey.length = 32 ∧
    (deriveKeys password salt).hmacKey.length = 32 ∧
    (deriveKeys password salt).iv.length = 16 := by
  have h := pbkdf2_length password salt PBKDF2_ITERATIONS
    (KEY_LENGTH + HMAC_LENGTH + IV_LENGTH)
  simp only [deriveKeys, KEY_LENGTH, HMAC_LENGTH, IV_LENGTH] at h ⊢
  refine ⟨?_, ?_, ?_⟩ <;>
    simp [List.length_take, List.length_drop, h]

theorem deriveKeys_bytes (password salt : List Nat) :
    Bytes (deriveKeys password salt).encryptionKey ∧
    Bytes (deriveKeys password salt).hmacKey ∧
    Bytes (deriveKeys password salt).iv := by
  have h := pbkdf2_bytes password salt PBKDF2_ITERATIONS
    (KEY_LENGTH + HMAC_LENGTH + IV_LENGTH)
  simp only [deriveKeys]
  refine ⟨?_, ?_, ?_⟩ <;> intro b hb
  · exact h b (List.mem_of_mem_take hb)
  · exact h b (List.mem_of_mem_drop (List.mem_of_mem_take hb))
  · exact h b (List.mem_of_mem_drop (List.mem_of_mem_take hb))

-- CTR keystream facts.

theorem aesBlockModel_length (key cb : List Nat) :
    (aesBlockModel key cb).length = 16 := by
  simp [aesBlockModel, List.length_take, sha256_length]

theorem aesBlockModel_bytes (key cb : List Nat) : Bytes (aesBlockModel key cb) :=
  fun b hb => sha256_bytes _ b (List.mem_of_mem_take hb)

theorem ctrKeystream_length (key iv : List Nat) (n : Nat) :
    (ctrKeystream key iv n).length = n := by
  simp only [ctrKeystream, List.length_take]
  rw [flatten_length_const _ 16 (by
    intro l hl
    simp only [List.mem_map] at hl
    obtain ⟨i, _, rfl⟩ := hl
    exact aesBlockModel_length ..)]
  simp only [List.length_map, List.length_range]
  omega

theorem ctrKeystream_bytes (key iv : List Nat) (n : Nat) :
    Bytes (ctrKeystream key iv n) := by
  intro b hb
  have hb' := List.mem_of_mem_take hb
  rw [List.mem_flatten] at hb'
  obtain ⟨l, hl, hbl⟩ := hb'
  simp only [List.mem_map] at hl
  obtain ⟨i, _, rfl⟩ := hl
  exact aesBlockModel_bytes _ _ b hbl

theorem aesCtrTransform_length (key iv input : List Nat) :
    (aesCtrTransform key iv input).length = input.length := by
  simp [aesCtrTransform, List.length_zipWith, ctrKeystream_length]

theorem aesCtrTransform_bytes (key iv input : List Nat) (h : Bytes input) :
    Bytes (aesCtrTransform key iv input) :=
  zipWith_xor_bytes h (ctrKeystream_bytes key iv input.length)

theorem aesCtrTransform_involution (key iv input : List Nat) :
    aesCtrTransform key iv (aesCtrTransform key iv input) = input := by
  simp only [aesCtrTransform, List.length_zipWith, ctrKeystream_length,
    Nat.min_self]
  exact zipWith_xor_cancel (le_of_eq (ctrKeystream_length key iv input.length).symm)

-- Constant-time comparison facts.

theorem lor_eq_zero_iff (a b : Nat) : Nat.lor a b = 0 ↔ a = 0 ∧ b = 0 := by
  show a ||| b = 0 ↔ a = 0 ∧ b = 0
  constructor
  · intro h
    constructor
    · apply Nat.eq_of_testBit_eq
      intro i
      have := congrArg (fun x => x.testBit i) h
      simp only [Nat.testBit_or, Nat.zero_testBit, Bool.or_eq_false_iff] at this
      simp [this.1]
    · apply Nat.eq_of_testBit_eq
      intro i
      have := congrArg (fun x => x.testBit i) h
      simp only [Nat.testBit_or, Nat.zero_testBit, Bool.or_eq_false_iff] at this
      simp [this.2]
  · rintro ⟨rfl, rfl⟩
    rfl

theorem foldl_lor_eq_zero_iff (l : List Nat) (acc : Nat) :
    l.foldl Nat.lor acc = 0 ↔ acc = 0 ∧ ∀ x ∈ l, x = 0 := by
  induction l generalizing acc with
  | nil => simp
  | cons a t ih =>
    simp only [List.foldl_cons, ih, lor_eq_zero_iff, List.mem_cons]
    constructor
    · rintro ⟨⟨h1, h2⟩, h3⟩
      exact ⟨h1, fun x hx => hx.elim (fun hx => hx ▸ h2) (h3 x)⟩
    · rintro ⟨h1, h2⟩
      exact ⟨⟨h1, h2 a (Or.inl rfl)⟩, fun x hx => h2 x (Or.inr hx)⟩

theorem timingSafeEqualModel_true_iff (a b : List Nat)
    (hlen : a.length = b.length) :
    (timingSafeEqualModel a b).1 = true ↔ a = b := by
  simp only [timingSafeEqualModel, beq_iff_eq, foldl_lor_eq_zero_iff]
  constructor
  · rintro ⟨-, h⟩
    apply List.ext_getElem hlen
    intro i hi hib
    have hmem : a[i] ^^^ b[i] ∈ List.zipWith Nat.xor a b := by
      rw [List.mem_iff_getElem]
      refine ⟨i, by rw [List.length_zipWith]; omega, ?_⟩
      simp only [List.getElem_zipWith]
      rfl
    exact Nat.xor_eq_zero.mp (h _ hmem)
  · rintro rfl
    refine ⟨by trivial, ?_⟩
    intro x hx
    rw [List.mem_iff_getElem] at hx
    obtain ⟨i, hi, rfl⟩ := hx
    simp only [List.getElem_zipWith]
    exact Nat.xor_self _

theorem verifyHmac_eq_true_iff (a b : List Nat) :
    verifyHmac a b = true ↔ a = b := by
  by_cases h : a.length = b.length
  · have he : verifyHmac a b = (timingSafeEqualModel a b).1 := by
      simp [verifyHmac, h]
    rw [he, timingSafeEqualModel_true_iff a b h]
  · have he : verifyHmac a b = false := by simp [verifyHmac, h]
    rw [he]
    constructor
    · intro hf; cases hf
    · rintro rfl; exact absurd rfl h

-- PKCS#7 facts.

theorem pkcs7Pad_eq (data : List Nat) :
    pkcs7Pad data = data ++
      List.replicate (16 - data.length % 16) (16 - data.length % 16) := rfl

theorem pkcs7Pad_padLen_bounds (data : List Nat) :
    1 ≤ 16 - data.length % 16 ∧ 16 - data.length % 16 ≤ 16 := by
  have := Nat.mod_lt data.length (show 0 < 16 by omega)
  omega

theorem pkcs7Pad_length (data : List Nat) :
    (pkcs7Pad data).length = data.length + (16 - data.length % 16) := by
  simp [pkcs7Pad]

theorem pkcs7Pad_bytes (data : List Nat) (h : Bytes data) :
    Bytes (pkcs7Pad data) := by
  intro b hb
  simp only [pkcs7Pad, List.mem_append, List.mem_replicate] at hb
  rcases hb with hb | hb
  · exact h b hb
  · have := pkcs7Pad_padLen_bounds data
    omega

theorem pkcs7Pad_ne_nil (data : List Nat) : pkcs7Pad data ≠ [] := by
  intro h
  have := congrArg List.length h
  rw [pkcs7Pad_length] at this
  have := pkcs7Pad_padLen_bounds data
  simp at *
  omega

theorem getLastD_irrel {α : Type} (m : List α) (hm : m ≠ []) (d d' : α) :
    m.getLastD d = m.getLastD d' := by
  cases m with
  | nil => exact absurd rfl hm
  | cons b bt => rfl

theorem getLastD_append_right {α : Type} (l m : List α) (d : α) (hm : m ≠ []) :
    (l ++ m).getLastD d = m.getLastD d := by
  induction l generalizing d with
  | nil => rfl
  | cons a t ih =>
    rw [List.cons_append, List.getLastD_cons, ih a]
    exact getLastD_irrel m hm a d

theorem getLastD_replicate {α : Type} (n : Nat) (x d : α) (h : 0 < n) :
    (List.replicate n x).getLastD d = x := by
  induction n generalizing d with
  | zero => omega
  | succ m ih =>
    rw [List.replicate_succ, List.getLastD_cons]
    cases Nat.eq_zero_or_pos m with
    | inl h0 => subst h0; rfl
    | inr hpos => exact ih x hpos

theorem pkcs7Unpad_pkcs7Pad (data : List Nat) :
    pkcs7Unpad (pkcs7Pad data) = Except.ok data := by
  have hbounds := pkcs7Pad_padLen_bounds data
  set n := 16 - data.length % 16 with hn
  have hne : pkcs7Pad data ≠ [] := pkcs7Pad_ne_nil data
  have hlast : (pkcs7Pad data).getLastD 0 = n := by
    rw [pkcs7Pad_eq, getLastD_append_right _ _ _ (by
      intro hrep
      have := congrArg List.length hrep
      simp at this
      omega)]
    exact getLastD_replicate n n 0 (by omega)
  have hlen : (pkcs7Pad data).length = data.length + n := pkcs7Pad_length data
  have hdrop : (pkcs7Pad data).drop data.length = List.replicate n n := by
    rw [pkcs7Pad_eq]
    exact List.drop_left data (List.replicate n n)
  have htake : (pkcs7Pad data).take data.length = data := by
    rw [pkcs7Pad_eq]
    exact List.take_left data (List.replicate n n)
  simp only [pkcs7Unpad, hlast]
  rw [if_neg (by simp [hne]), if_neg (by omega), if_neg (by omega)]
  rw [show (pkcs7Pad data).length - n = data.length by omega]
  rw [hdrop, htake, if_pos]
  simp [List.all_eq_true]

-- Hex codec facts.

theorem hexDigitChar_spec : ∀ n < 16,
    isHexChar (hexDigitChar n) = true ∧ hexCharVal (hexDigitChar n) = n ∧
    isHexByte (hexDigitChar n).toNat = true ∧
    hexByteVal (hexDigitChar n).toNat = n ∧
    (hexDigitChar n).toNat < 128 ∧ (hexDigitChar n).toNat ≠ 10 ∧
    isJsWs (hexDigitChar n) = false ∧ hexDigitChar n ≠ '\n' ∧
    hexDigitChar n ≠ '\r' ∧
    ((48 ≤ (hexDigitChar n).toNat ∧ (hexDigitChar n).toNat ≤ 57) ∨
     (97 ≤ (hexDigitChar n).toNat ∧ (hexDigitChar n).toNat ≤ 102)) := by
  decide

theorem hexEncode_cons (b : Nat) (t : List Nat) :
    hexEncode (b :: t) =
      hexDigitChar (b / 16) :: hexDigitChar (b % 16) :: hexEncode t := rfl

theorem hexEncode_length (bs : List Nat) :
    (hexEncode bs).length = 2 * bs.length := by
  induction bs with
  | nil => rfl
  | cons b t ih => rw [hexEncode_cons]; simp [ih]; omega

theorem hexEncode_append (a b : List Nat) :
    hexEncode (a ++ b) = hexEncode a ++ hexEncode b := by
  simp [hexEncode]

theorem mem_hexEncode (bs : List Nat) (h : Bytes bs) (c : Char)
    (hc : c ∈ hexEncode bs) : ∃ n, n < 16 ∧ c = hexDigitChar n := by
  induction bs with
  | nil => simp [hexEncode] at hc
  | cons b t ih =>
    rw [hexEncode_cons] at hc
    have hb := h b (by simp)
    simp only [List.mem_cons] at hc
    rcases hc with hc | hc | hc
    · exact ⟨b / 16, by omega, hc⟩
    · exact ⟨b % 16, by omega, hc⟩
    · exact ih (fun x hx => h x (by simp [hx])) hc

theorem hexDecodePairsC_hexEncode (bs : List Nat) (h : Bytes bs) :
    hexDecodePairsC (hexEncode bs) = bs := by
  induction bs with
  | nil => rfl
  | cons b t ih =>
    rw [hexEncode_cons]
    have hb := h b (by simp)
    have h1 := (hexDigitChar_spec (b / 16) (by omega)).1
    have h2 := (hexDigitChar_spec (b % 16) (by omega)).1
    have hv1 := (hexDigitChar_spec (b / 16) (by omega)).2.1
    have hv2 := (hexDigitChar_spec (b % 16) (by omega)).2.1
    simp only [hexDecodePairsC, h1, h2, hv1, hv2, and_self, if_pos]
    rw [ih (fun x hx => h x (by simp [hx]))]
    congr 1
    omega

theorem asciiBytes_append (a b : List Char) :
    asciiBytes (a ++ b) = asciiBytes a ++ asciiBytes b := by
  simp [asciiBytes]

theorem hexDecodePairsB_asciiBytes_hexEncode (bs : List Nat) (h : Bytes bs) :
    hexDecodePairsB (asciiBytes (hexEncode bs)) = bs := by
  induction bs with
  | nil => rfl
  | cons b t ih =>
    rw [hexEncode_cons]
    have hb := h b (by simp)
    have h1 := (hexDigitChar_spec (b / 16) (by omega)).2.2.1
    have h2 := (hexDigitChar_spec (b % 16) (by omega)).2.2.1
    have hv1 := (hexDigitChar_spec (b / 16) (by omega)).2.2.2.1
    have hv2 := (hexDigitChar_spec (b % 16) (by omega)).2.2.2.1
    show hexDecodePairsB ((hexDigitChar (b / 16)).toNat ::
      (hexDigitChar (b % 16)).toNat :: asciiBytes (hexEncode t)) = b :: t
    simp only [hexDecodePairsB, h1, h2, hv1, hv2, and_self, if_pos]
    rw [ih (fun x hx => h x (by simp [hx]))]
    congr 1
    omega

theorem twoStepInduction {α : Type} {P : List α → Prop} (h0 : P [])
    (h1 : ∀ a, P [a]) (h2 : ∀ a b t, P t → P (a :: b :: t)) :
    ∀ l, P l
  | [] => h0
  | [a] => h1 a
  | a :: b :: t => h2 a b t (twoStepInduction h0 h1 h2 t)

theorem hexDecodePairsC_append_single (l : List Char) (d : Char)
    (hev : l.length % 2 = 0) :
    hexDecodePairsC (l ++ [d]) = hexDecodePairsC l := by
  induction l using twoStepInduction with
  | h0 => rfl
  | h1 a => simp at hev
  | h2 a b t ih =>
    show hexDecodePairsC (a :: b :: (t ++ [d])) = hexDecodePairsC (a :: b :: t)
    simp only [hexDecodePairsC]
    rw [ih (by simp at hev; omega)]

-- splitSep / joinSep facts.

theorem splitSep_ne_nil {α : Type} [DecidableEq α] (sep : α) (l : List α) :
    splitSep sep l ≠ [] := by
  cases l with
  | nil => simp [splitSep]
  | cons a t =>
    simp only [splitSep]
    split
    · simp
    · split <;> simp

theorem splitSep_no_sep {α : Type} [DecidableEq α] (sep : α) (l : List α)
    (h : sep ∉ l) : splitSep sep l = [l] := by
  induction l with
  | nil => rfl
  | cons a t ih =>
    simp only [splitSep]
    rw [if_neg (by intro he; exact h (by simp [he]))]
    rw [ih (by intro ht; exact h (by simp [ht]))]

theorem splitSep_append_sep {α : Type} [DecidableEq α] (sep : α)
    (xs ys : List α) (h : sep ∉ xs) :
    splitSep sep (xs ++ sep :: ys) = xs :: splitSep sep ys := by
  induction xs with
  | nil => simp [splitSep]
  | cons a t ih =>
    simp only [List.cons_append, splitSep, List.append_eq]
    rw [if_neg (by intro he; exact h (by simp [he]))]
    rw [ih (by intro ht; exact h (by simp [ht]))]

theorem joinSep_cons {α : Type} (sep : α) (x : List α) (xs : List (List α))
    (h : xs ≠ []) : joinSep sep (x :: xs) = x ++ sep :: joinSep sep xs := by
  cases xs with
  | nil => exact absurd rfl h
  | cons y ys => rfl

theorem splitSep_joinSep {α : Type} [DecidableEq α] (sep : α)
    (ls : List (List α)) (hne : ls ≠ []) (h : ∀ x ∈ ls, sep ∉ x) :
    splitSep sep (joinSep sep ls) = ls := by
  induction ls with
  | nil => exact absurd rfl hne
  | cons x xs ih =>
    cases xs with
    | nil =>
      show splitSep sep (joinSep sep [x]) = [x]
      exact splitSep_no_sep sep x (h x (by simp))
    | cons y ys =>
      rw [joinSep_cons sep x (y :: ys) (by simp)]
      rw [splitSep_append_sep sep x _ (h x (by simp))]
      rw [ih (by simp) (fun z hz => h z (by simp [hz]))]

theorem joinSep_splitSep {α : Type} [DecidableEq α] (sep : α) (l : List α) :
    joinSep sep (splitSep sep l) = l := by
  induction l with
  | nil => rfl
  | cons a t ih =>
    simp only [splitSep]
    by_cases ha : a = sep
    · rw [if_pos ha]
      rw [joinSep_cons sep [] (splitSep sep t) (splitSep_ne_nil sep t)]
      simp [ih, ha]
    · rw [if_neg ha]
      cases hsp : splitSep sep t with
      | nil => exact absurd hsp (splitSep_ne_nil sep t)
      | cons h' t' =>
        cases t' with
        | nil =>
          show joinSep sep [a :: h'] = a :: t
          have : joinSep sep [h'] = t := by rw [← hsp]; exact ih
          show a :: h' = a :: t
          simpa using this
        | cons h'' t'' =>
          rw [joinSep_cons sep (a :: h') (h'' :: t'') (by simp)]
          have : joinSep sep (h' :: h'' :: t'') = t := by rw [← hsp]; exact ih
          rw [joinSep_cons sep h' (h'' :: t'') (by simp)] at this
          simp [← this]

theorem splitSep_length_pos {α : Type} [DecidableEq α] (sep : α) (l : List α) :
    0 < (splitSep sep l).length :=
  List.length_pos.mpr (splitSep_ne_nil sep l)

theorem mapInit_length {α : Type} (f : α → α) (l : List α) :
    (mapInit f l).length = l.length := by
  induction l with
  | nil => rfl
  | cons a t ih =>
    cases t with
    | nil => rfl
    | cons b u => simpa [mapInit] using ih

theorem mapLast_length {α : Type} (f : α → α) (l : List α) :
    (mapLast f l).length = l.length := by
  induction l with
  | nil => rfl
  | cons a t ih =>
    cases t with
    | nil => rfl
    | cons b u => simpa [mapLast] using ih

theorem splitSep_append_single {α : Type} [DecidableEq α] (sep c : α)
    (l : List α) (hc : c ≠ sep) :
    splitSep sep (l ++ [c]) = mapLast (fun x => x ++ [c]) (splitSep sep l) := by
  induction l with
  | nil => simp [splitSep, if_neg hc, mapLast]
  | cons a t ih =>
    simp only [List.cons_append, splitSep, List.append_eq]
    by_cases ha : a = sep
    · rw [if_pos ha, if_pos ha, ih]
      cases hsp : splitSep sep t with
      | nil => exact absurd hsp (splitSep_ne_nil sep t)
      | cons h' t' => rfl
    · rw [if_neg ha, if_neg ha, ih]
      cases hsp : splitSep sep t with
      | nil => exact absurd hsp (splitSep_ne_nil sep t)
      | cons h' t' =>
        cases t' with
        | nil => rfl
        | cons h'' t'' => rfl

-- jsTrim facts.

theorem dropWhile_append_of_all {α : Type} (p : α → Bool) (a b : List α)
    (h : ∀ x ∈ a, p x = true) :
    (a ++ b).dropWhile p = b.dropWhile p := by
  induction a with
  | nil => rfl
  | cons x t ih =>
    simp only [List.cons_append, List.dropWhile_cons, h x (by simp), if_pos]
    exact ih (fun y hy => h y (by simp [hy]))

theorem dropWhile_cons_of_neg {α : Type} (p : α → Bool) (x : α) (t : List α)
    (h : p x = false) : (x :: t).dropWhile p = x :: t := by
  simp [List.dropWhile_cons, h]

theorem jsTrim_eq_self (l : List Char)
    (hh : l ≠ [] → isJsWs (l.headD '$') = false)
    (hlast : isJsWs (l.getLastD '$') = false) : jsTrim l = l := by
  cases l with
  | nil => rfl
  | cons a t =>
    have ha : isJsWs a = false := hh (by simp)
    simp only [jsTrim]
    rw [dropWhile_cons_of_neg _ _ _ ha]
    have : ((a :: t).reverse).dropWhile isJsWs = (a :: t).reverse := by
      cases hrev : (a :: t).reverse with
      | nil =>
        have := congrArg List.length hrev
        simp at this
      | cons b u =>
        apply dropWhile_cons_of_neg
        have : (a :: t).getLastD '$' = b := by
          have h1 : (a :: t).getLastD '$' = ((a :: t).reverse).headD '$' := by
            rw [List.getLastD_eq_getLast?, List.headD_eq_head?,
              List.head?_reverse]
          rw [h1, hrev]
          rfl
        rw [← this]
        exact hlast
    rw [this, List.reverse_reverse]

theorem jsTrim_ws_append (pre x : List Char) (hpre : AllWs pre) :
    jsTrim (pre ++ x) = jsTrim x := by
  simp only [jsTrim]
  rw [dropWhile_append_of_all _ _ _ hpre]

theorem jsTrim_append_ws (x suf : List Char) (hsuf : AllWs suf) :
    jsTrim (x ++ suf) = jsTrim x := by
  simp only [jsTrim]
  rw [List.dropWhile_append]
  by_cases hx : (x.dropWhile isJsWs).isEmpty
  · rw [if_pos hx]
    have h1 : suf.dropWhile isJsWs = [] := List.dropWhile_eq_nil_iff.mpr hsuf
    rw [h1]
    rw [List.isEmpty_iff] at hx
    rw [hx]
  · rw [if_neg hx]
    rw [List.reverse_append]
    rw [dropWhile_append_of_all _ _ _ (by
      intro c hc
      exact hsuf c (by simpa using hc))]

theorem jsTrim_pad (pre x suf : List Char) (hpre : AllWs pre)
    (hsuf : AllWs suf) : jsTrim (pre ++ x ++ suf) = jsTrim x := by
  rw [List.append_assoc, jsTrim_ws_append _ _ hpre, jsTrim_append_ws _ _ hsuf]

theorem dropWhile_headD_false {α : Type} (p : α → Bool) (l : List α) (d : α)
    (h : l.dropWhile p ≠ []) : p ((l.dropWhile p).headD d) = false := by
  induction l with
  | nil => exact absurd rfl h
  | cons a t ih =>
    by_cases ha : p a
    · rw [List.dropWhile_cons, if_pos ha] at h ⊢
      exact ih h
    · rw [List.dropWhile_cons, if_neg ha] at h ⊢
      simpa using (Bool.eq_false_iff.mpr ha)

theorem dropWhile_getLastD {α : Type} (p : α → Bool) (l : List α) (d : α)
    (h : l.dropWhile p ≠ []) :
    (l.dropWhile p).getLastD d = l.getLastD d := by
  induction l generalizing d with
  | nil => exact absurd rfl h
  | cons a t ih =>
    by_cases ha : p a
    · rw [List.dropWhile_cons, if_pos ha] at h ⊢
      have ht : t ≠ [] := by
        intro h0
        rw [h0] at h
        exact h rfl
      rw [ih d h, List.getLastD_cons]
      exact getLastD_irrel t ht d a
    · rw [List.dropWhile_cons, if_neg ha]

theorem takeWhile_allWs (l : List Char) : AllWs (l.takeWhile isJsWs) := by
  intro c hc
  exact List.mem_takeWhile_imp hc

theorem jsTrim_decomp (l : List Char) :
    ∃ pre suf, l = pre ++ jsTrim l ++ suf ∧ AllWs pre ∧ AllWs suf := by
  refine ⟨l.takeWhile isJsWs,
    ((l.dropWhile isJsWs).reverse.takeWhile isJsWs).reverse, ?_, ?_, ?_⟩
  · have h1 : l.takeWhile isJsWs ++ l.dropWhile isJsWs = l :=
      List.takeWhile_append_dropWhile isJsWs l
    have h2 : (l.dropWhile isJsWs).reverse.takeWhile isJsWs ++
        (l.dropWhile isJsWs).reverse.dropWhile isJsWs =
        (l.dropWhile isJsWs).reverse :=
      List.takeWhile_append_dropWhile isJsWs (l.dropWhile isJsWs).reverse
    have h3 := congrArg List.reverse h2
    rw [List.reverse_append, List.reverse_reverse] at h3
    show l = l.takeWhile isJsWs ++ jsTrim l ++
      ((l.dropWhile isJsWs).reverse.takeWhile isJsWs).reverse
    rw [List.append_assoc]
    conv_lhs => rw [← h1]
    congr 1
    exact h3.symm
  · exact takeWhile_allWs l
  · intro c hc
    rw [List.mem_reverse] at hc
    exact takeWhile_allWs _ c hc

theorem jsTrim_props (l : List Char) :
    jsTrim l = [] ∨ (isJsWs ((jsTrim l).headD '$') = false ∧
      isJsWs ((jsTrim l).getLastD '$') = false) := by
  by_cases h : jsTrim l = []
  · exact Or.inl h
  · right
    simp only [jsTrim] at h ⊢
    set x := l.dropWhile isJsWs with hx
    set y := x.reverse.dropWhile isJsWs with hy
    have hyne : y ≠ [] := by
      intro h0
      rw [h0] at h
      exact h rfl
    constructor
    · have h1 : (y.reverse).headD '$' = y.getLastD '$' := by
        rw [List.headD_eq_head?, List.head?_reverse,
          List.getLastD_eq_getLast?]
      rw [h1]
      have hxrev : x.reverse ≠ [] := by
        intro h0
        rw [h0] at hy
        exact hyne hy
      rw [dropWhile_getLastD _ _ _ hyne]
      have h2 : x.reverse.getLastD '$' = x.headD '$' := by
        rw [List.getLastD_eq_getLast?, List.getLast?_reverse,
          List.headD_eq_head?]
      rw [h2]
      apply dropWhile_headD_false
      intro h0
      rw [← hx] at h0
      rw [h0] at hxrev
      simp at hxrev
    · have h1 : (y.reverse).getLastD '$' = y.headD '$' := by
        rw [List.getLastD_eq_getLast?, List.getLast?_reverse,
          List.headD_eq_head?]
      rw [h1]
      exact dropWhile_headD_false _ _ _ hyne

theorem jsTrim_idem (l : List Char) : jsTrim (jsTrim l) = jsTrim l := by
  rcases jsTrim_props l with h | ⟨h1, h2⟩
  · rw [h]; rfl
  · exact jsTrim_eq_self _ (fun _ => h1) h2

-- chunks80 facts.

theorem chunks80_flatten {α : Type} (l : List α) : (chunks80 l).flatten = l := by
  induction l using chunks80.induct with
  | case1 l hl =>
    rw [chunks80, if_pos hl]
    rw [List.isEmpty_iff] at hl
    simp [hl]
  | case2 l hl ih =>
    rw [chunks80, if_neg hl]
    simp only [List.flatten_cons, ih]
    exact List.take_append_drop 80 l

theorem chunks80_ne_nil {α : Type} (l : List α) (h : l ≠ []) :
    chunks80 l ≠ [] := by
  rw [chunks80, if_neg (by simpa [List.isEmpty_iff] using h)]
  simp

theorem chunks80_mem_ne_nil {α : Type} (l : List α) (c : List α)
    (hc : c ∈ chunks80 l) : c ≠ [] := by
  induction l using chunks80.induct with
  | case1 l hl =>
    rw [chunks80, if_pos hl] at hc
    simp at hc hl
  | case2 l hl ih =>
    rw [chunks80, if_neg hl] at hc
    rw [List.isEmpty_iff] at hl
    rcases (List.mem_cons.mp hc) with hc | hc
    · subst hc
      intro h0
      have := congrArg List.length h0
      simp only [List.length_take, List.length_nil] at this
      have hlp : 0 < l.length := List.length_pos.mpr hl
      omega
    · exact ih hc

theorem chunks80_mem_length_le {α : Type} (l : List α) (c : List α)
    (hc : c ∈ chunks80 l) : c.length ≤ 80 := by
  induction l using chunks80.induct with
  | case1 l hl =>
    rw [chunks80, if_pos hl] at hc
    simp at hc
  | case2 l hl ih =>
    rw [chunks80, if_neg hl] at hc
    rcases (List.mem_cons.mp hc) with hc | hc
    · subst hc
      simp [List.length_take]
    · exact ih hc

theorem chunks80_dropLast_length {α : Type} (l : List α) (c : List α)
    (hc : c ∈ (chunks80 l).dropLast) : c.length = 80 := by
  induction l using chunks80.induct with
  | case1 l hl =>
    rw [chunks80, if_pos hl] at hc
    simp at hc
  | case2 l hl ih =>
    rw [chunks80, if_neg hl] at hc
    rw [List.isEmpty_iff] at hl
    have hlen : 80 < l.length ∨ l.length ≤ 80 := by omega
    by_cases hrest : chunks80 (l.drop 80) = []
    · rw [hrest] at hc
      simp at hc
    · rw [List.dropLast_cons_of_ne_nil hrest] at hc
      rcases (List.mem_cons.mp hc) with hc | hc
      · subst hc
        have : l.drop 80 ≠ [] := by
          intro h0
          rw [h0] at hrest
          exact hrest (by rw [chunks80]; simp)
        have : 80 < l.length := by
          by_contra hcon
          apply this
          apply List.drop_eq_nil_of_le
          omega
        simp [List.length_take]
        omega
      · exact ih hc

theorem chunks80_mem_subset {α : Type} (l : List α) (c : List α)
    (hc : c ∈ chunks80 l) (x : α) (hx : x ∈ c) : x ∈ l := by
  rw [← chunks80_flatten l]
  exact List.mem_flatten.mpr ⟨c, hc, hx⟩

theorem chunks80_getLastD_mem {α : Type} (L : List (List α)) (h : L ≠ []) :
    L.getLastD [] ∈ L := by
  cases L with
  | nil => exact absurd rfl h
  | cons a t =>
    rw [List.getLastD_cons]
    exact List.getLastD_mem_cons t a

theorem joinSep_getLastD {α : Type} (sep : α) (L : List (List α)) (d : α)
    (hne : L ≠ []) (hlast : L.getLastD [] ≠ []) :
    (joinSep sep L).getLastD d = (L.getLastD []).getLastD d := by
  induction L generalizing d with
  | nil => exact absurd rfl hne
  | cons x xs ih =>
    cases xs with
    | nil => rfl
    | cons y ys =>
      have hlast' : (y :: ys).getLastD [] ≠ [] := by
        rw [List.getLastD_cons] at hlast
        rw [getLastD_irrel (y :: ys) (by simp) [] x]
        exact hlast
      have h1 : (x ++ sep :: joinSep sep (y :: ys)).getLastD d =
          (sep :: joinSep sep (y :: ys)).getLastD d :=
        getLastD_append_right _ _ _ (by simp)
      rw [joinSep_cons sep x (y :: ys) (by simp), h1, List.getLastD_cons]
      rw [ih sep (by simp) hlast']
      rw [List.getLastD_cons]
      rw [show (x :: y :: ys).getLastD ([] : List α) = ys.getLastD y from by
        rw [List.getLastD_cons, List.getLastD_cons]]
      rw [List.getLastD_cons] at hlast'
      exact getLastD_irrel _ hlast' sep d

-- Facts about the encoded envelope.

theorem headD_append_of_ne_nil {α : Type} (l1 l2 : List α) (d : α)
    (h : l1 ≠ []) : (l1 ++ l2).headD d = l1.headD d := by
  cases l1 with
  | nil => exact absurd rfl h
  | cons a t => rfl

theorem getLastD_mem {α : Type} (c : List α) (d : α) (h : c ≠ []) :
    c.getLastD d ∈ c := by
  cases c with
  | nil => exact absurd rfl h
  | cons a t =>
    rw [List.getLastD_cons]
    exact List.getLastD_mem_cons t a

theorem formatVaultData_eq (salt tag ct : List Nat) :
    formatVaultData salt tag ct =
      joinSep '\n' (expectedHeader :: chunks80 (bodyHexData salt tag ct)) := rfl

theorem mem_asciiBytes_hexEncode (x : List Nat) (hx : Bytes x) (b : Nat)
    (hb : b ∈ asciiBytes (hexEncode x)) :
    ∃ n, n < 16 ∧ b = (hexDigitChar n).toNat := by
  simp only [asciiBytes, List.mem_map] at hb
  obtain ⟨c, hc, rfl⟩ := hb
  obtain ⟨n, hn, rfl⟩ := mem_hexEncode x hx c hc
  exact ⟨n, hn, rfl⟩

theorem innerAscii_split (salt tag ct : List Nat) :
    innerAscii salt tag ct =
      asciiBytes (hexEncode salt) ++
        (10 :: (asciiBytes (hexEncode tag) ++
          (10 :: asciiBytes (hexEncode ct)))) := by
  simp [innerAscii, asciiBytes]

theorem innerAscii_bytes (salt tag ct : List Nat) (hs : Bytes salt)
    (ht : Bytes tag) (hc : Bytes ct) : Bytes (innerAscii salt tag ct) := by
  intro b hb
  rw [innerAscii_split] at hb
  have hkey : ∀ (x : List Nat), Bytes x → b ∈ asciiBytes (hexEncode x) →
      b < 256 := by
    intro x hx hbx
    obtain ⟨n, hn, rfl⟩ := mem_asciiBytes_hexEncode x hx b hbx
    have := (hexDigitChar_spec n hn).2.2.2.2.1
    omega
  rcases List.mem_append.mp hb with h | hrest
  · exact hkey salt hs h
  rcases List.mem_cons.mp hrest with h10 | hrest2
  · omega
  rcases List.mem_append.mp hrest2 with h | hrest3
  · exact hkey tag ht h
  rcases List.mem_cons.mp hrest3 with h10 | h
  · omega
  · exact hkey ct hc h

theorem bodyHexData_allHex (salt tag ct : List Nat) (hs : Bytes salt)
    (ht : Bytes tag) (hc : Bytes ct) :
    ∀ c ∈ bodyHexData salt tag ct, isHexChar c = true := by
  intro c hcm
  obtain ⟨n, hn, rfl⟩ := mem_hexEncode _
    (innerAscii_bytes salt tag ct hs ht hc) c hcm
  exact (hexDigitChar_spec n hn).1

theorem bodyHexData_ne_nil (salt tag ct : List Nat) :
    bodyHexData salt tag ct ≠ [] := by
  intro h
  have := congrArg List.length h
  simp only [bodyHexData, hexEncode_length, innerAscii, asciiBytes,
    List.length_map, List.length_append, List.length_cons,
    List.length_nil] at this
  omega

theorem hexChar_not_ws (c : Char) (h : isHexChar c = true) :
    isJsWs c = false := by
  simp only [isHexChar, decide_eq_true_eq] at h
  simp only [isJsWs, decide_eq_false_iff_not]
  omega

theorem hexChar_ne_nl (c : Char) (h : isHexChar c = true) : c ≠ '\n' := by
  intro hrfl
  subst hrfl
  simp [isHexChar] at h

theorem hexByte_of_innerAscii_part (x : List Nat) (hx : Bytes x) :
    ∀ b ∈ asciiBytes (hexEncode x), isHexByte b = true := by
  intro b hb
  obtain ⟨n, hn, rfl⟩ := mem_asciiBytes_hexEncode x hx b hb
  exact (hexDigitChar_spec n hn).2.2.1

theorem ten_not_mem_asciiBytes_hexEncode (x : List Nat) (hx : Bytes x) :
    (10 : Nat) ∉ asciiBytes (hexEncode x) := by
  intro h
  obtain ⟨n, hn, heq⟩ := mem_asciiBytes_hexEncode x hx 10 h
  exact (hexDigitChar_spec n hn).2.2.2.2.2.1 heq.symm

theorem expectedHeader_facts :
    expectedHeader ≠ [] ∧ isJsWs (expectedHeader.headD '$') = false ∧
    '\n' ∉ expectedHeader ∧ normalizeHeader expectedHeader = expectedHeader := by
  decide

theorem envLines_no_nl (salt tag ct : List Nat) (hs : Bytes salt)
    (ht : Bytes tag) (hc : Bytes ct) :
    ∀ x ∈ envLines salt tag ct, '\n' ∉ x := by
  intro x hx
  rcases List.mem_cons.mp hx with hx | hx
  · subst hx
    exact expectedHeader_facts.2.2.1
  · intro hnl
    exact hexChar_ne_nl '\n'
      (bodyHexData_allHex salt tag ct hs ht hc '\n'
        (chunks80_mem_subset _ x hx '\n' hnl)) rfl

theorem envLines_getLastD_ne_nil (salt tag ct : List Nat) :
    (envLines salt tag ct).getLastD [] ≠ [] := by
  have hchunks := chunks80_ne_nil _ (bodyHexData_ne_nil salt tag ct)
  simp only [envLines, List.getLastD_cons]
  rw [getLastD_irrel _ hchunks expectedHeader []]
  exact chunks80_mem_ne_nil _ _ (chunks80_getLastD_mem _ hchunks)

theorem formatVaultData_trim (salt tag ct : List Nat) (hs : Bytes salt)
    (ht : Bytes tag) (hc : Bytes ct) :
    jsTrim (formatVaultData salt tag ct) = formatVaultData salt tag ct := by
  have hchunks := chunks80_ne_nil _ (bodyHexData_ne_nil salt tag ct)
  rw [formatVaultData_eq]
  apply jsTrim_eq_self
  · intro _
    rw [joinSep_cons _ _ _ hchunks,
      headD_append_of_ne_nil _ _ _ expectedHeader_facts.1]
    exact expectedHeader_facts.2.1
  · show isJsWs ((joinSep '\n' (envLines salt tag ct)).getLastD '$') = false
    rw [joinSep_getLastD '\n' _ '$' (by simp [envLines])
      (envLines_getLastD_ne_nil salt tag ct)]
    have hlastne := envLines_getLastD_ne_nil salt tag ct
    have hmem : ((envLines salt tag ct).getLastD []).getLastD '$' ∈
        (envLines salt tag ct).getLastD [] := getLastD_mem _ _ hlastne
    have hlastmem : (envLines salt tag ct).getLastD [] ∈
        chunks80 (bodyHexData salt tag ct) := by
      simp only [envLines, List.getLastD_cons]
      rw [getLastD_irrel _ hchunks expectedHeader []]
      exact chunks80_getLastD_mem _ hchunks
    apply hexChar_not_ws
    apply bodyHexData_allHex salt tag ct hs ht hc
    exact chunks80_mem_subset _ _ hlastmem _ hmem

theorem formatVaultData_splitSep (salt tag ct : List Nat) (hs : Bytes salt)
    (ht : Bytes tag) (hc : Bytes ct) :
    splitSep '\n' (formatVaultData salt tag ct) = envLines salt tag ct := by
  rw [formatVaultData_eq]
  exact splitSep_joinSep '\n' _ (by simp [envLines])
    (envLines_no_nl salt tag ct hs ht hc)

theorem splitSep_innerAscii (salt tag ct : List Nat) (hs : Bytes salt)
    (ht : Bytes tag) (hc : Bytes ct) :
    splitSep 10 (innerAscii salt tag ct) =
      [asciiBytes (hexEncode salt), asciiBytes (hexEncode tag),
       asciiBytes (hexEncode ct)] := by
  rw [innerAscii_split]
  rw [splitSep_append_sep 10 _ _ (ten_not_mem_asciiBytes_hexEncode salt hs)]
  rw [splitSep_append_sep 10 _ _ (ten_not_mem_asciiBytes_hexEncode tag ht)]
  rw [splitSep_no_sep 10 _ (ten_not_mem_asciiBytes_hexEncode ct hc)]

theorem parseVaultData_formatVaultData (salt tag ct : List Nat)
    (hslen : salt.length = 32) (hs : Bytes salt)
    (htlen : tag.length = 32) (ht : Bytes tag)
    (hcne : ct ≠ []) (hc : Bytes ct) :
    parseVaultData (formatVaultData salt tag ct) =
      Except.ok (salt, tag, ct) := by
  have htrim := formatVaultData_trim salt tag ct hs ht hc
  have hsplitL := formatVaultData_splitSep salt tag ct hs ht hc
  have hchunks := chunks80_ne_nil _ (bodyHexData_ne_nil salt tag ct)
  have hhexall := bodyHexData_allHex salt tag ct hs ht hc
  have hbody_ne := bodyHexData_ne_nil salt tag ct
  have hlen2 : ¬ ((envLines salt tag ct).length < 2) := by
    simp only [envLines, List.length_cons]
    have := List.length_pos.mpr hchunks
    omega
  have hgetD : (envLines salt tag ct).getD 0 [] = expectedHeader := rfl
  have hhdr : normalizeHeader expectedHeader = expectedHeader :=
    expectedHeader_facts.2.2.2
  have hdrop : (envLines salt tag ct).drop 1 =
      chunks80 (bodyHexData salt tag ct) := rfl
  have hfilter : (bodyHexData salt tag ct).filter (fun c => !(isJsWs c)) =
      bodyHexData salt tag ct := by
    apply List.filter_eq_self.mpr
    intro c hcm
    rw [hexChar_not_ws c (hhexall c hcm)]
    rfl
  have hisEmpty : (bodyHexData salt tag ct).isEmpty = false := by
    simp [List.isEmpty_iff, hbody_ne]
  have hall : (bodyHexData salt tag ct).all isHexChar = true :=
    List.all_eq_true.mpr hhexall
  have hdecode : hexDecodePairsC (bodyHexData salt tag ct) =
      innerAscii salt tag ct :=
    hexDecodePairsC_hexEncode _ (innerAscii_bytes salt tag ct hs ht hc)
  have hparts := splitSep_innerAscii salt tag ct hs ht hc
  have hhb1 : (asciiBytes (hexEncode salt)).all isHexByte = true :=
    List.all_eq_true.mpr (hexByte_of_innerAscii_part salt hs)
  have hhb2 : (asciiBytes (hexEncode tag)).all isHexByte = true :=
    List.all_eq_true.mpr (hexByte_of_innerAscii_part tag ht)
  have hhb3 : (asciiBytes (hexEncode ct)).all isHexByte = true :=
    List.all_eq_true.mpr (hexByte_of_innerAscii_part ct hc)
  have hdec1 : hexDecodePairsB (asciiBytes (hexEncode salt)) = salt :=
    hexDecodePairsB_asciiBytes_hexEncode salt hs
  have hdec2 : hexDecodePairsB (asciiBytes (hexEncode tag)) = tag :=
    hexDecodePairsB_asciiBytes_hexEncode tag ht
  have hdec3 : hexDecodePairsB (asciiBytes (hexEncode ct)) = ct :=
    hexDecodePairsB_asciiBytes_hexEncode ct hc
  have hctE : ct.isEmpty = false := by simp [List.isEmpty_iff, hcne]
  simp only [parseVaultData, htrim, hsplitL, hlen2, hgetD, hhdr, hdrop,
    chunks80_flatten, hfilter, hisEmpty, hall, hdecode, hparts, hhb1, hhb2,
    hhb3, hdec1, hdec2, hdec3, hslen, htlen, hctE, SALT_LENGTH, HMAC_LENGTH,
    List.getD_cons_zero, List.getD_cons_succ, List.length_cons,
    List.length_nil, if_false, if_true]
  simp

theorem encryptVaultString_ok (salt pt pw : List Nat) (hpt : pt ≠ [])
    (hpw : pw ≠ []) :
    encryptVaultString salt pt pw =
      Except.ok (formatVaultData salt (encTag salt pt pw)
        (encCiphertext salt pt pw)) := by
  simp only [encryptVaultString, List.isEmpty_iff, hpt, hpw, if_false,
    encTag, encCiphertext]

theorem encCiphertext_ne_nil (salt pt pw : List Nat) :
    encCiphertext salt pt pw ≠ [] := by
  intro h
  have := congrArg List.length h
  rw [encCiphertext, aesCtrTransform_length, pkcs7Pad_length] at this
  have := pkcs7Pad_padLen_bounds pt
  simp at *
  omega

theorem encCiphertext_bytes (salt pt pw : List Nat) (h : Bytes pt) :
    Bytes (encCiphertext salt pt pw) :=
  aesCtrTransform_bytes _ _ _ (pkcs7Pad_bytes pt h)

theorem formatVaultData_ne_nil (salt tag ct : List Nat) :
    formatVaultData salt tag ct ≠ [] := by
  rw [formatVaultData_eq]
  rw [joinSep_cons _ _ _ (chunks80_ne_nil _ (bodyHexData_ne_nil salt tag ct))]
  intro h
  have := congrArg List.length h
  rw [List.length_append] at this
  simp at this

theorem decryptVaultString_formatVaultData (salt pt pw : List Nat)
    (hpt : pt ≠ []) (hpw : pw ≠ []) (hptB : Bytes pt)
    (hslen : salt.length = 32) (hsB : Bytes salt) :
    decryptVaultString (formatVaultData salt (encTag salt pt pw)
      (encCiphertext salt pt pw)) pw = Except.ok pt := by
  have henvne := formatVaultData_ne_nil salt (encTag salt pt pw)
    (encCiphertext salt pt pw)
  have hparse := parseVaultData_formatVaultData salt (encTag salt pt pw)
    (encCiphertext salt pt pw) hslen hsB (hmacSha256_length ..)
    (hmacSha256_bytes _ _) (encCiphertext_ne_nil salt pt pw)
    (encCiphertext_bytes salt pt pw hptB)
  have hverify : verifyHmac (encTag salt pt pw)
      (hmacSha256 (deriveKeys pw salt).hmacKey (encCiphertext salt pt pw)) =
      true := (verifyHmac_eq_true_iff _ _).mpr rfl
  have hinv : aesCtrTransform (deriveKeys pw salt).encryptionKey
      (deriveKeys pw salt).iv (encCiphertext salt pt pw) = pkcs7Pad pt :=
    aesCtrTransform_involution _ _ _
  simp only [decryptVaultString, decryptVaultStringWith, decryptVaultRawWith,
    List.isEmpty_iff, henvne, hpw, if_false, hparse, hverify, hinv,
    pkcs7Unpad_pkcs7Pad]
  simp

-- pkcs7Unpad characterization.

theorem pkcs7Unpad_error_iff (buf : List Nat) :
    (∃ e, pkcs7Unpad buf = Except.error e) ↔
      (buf = [] ∨ buf.getLastD 0 < 1 ∨ 16 < buf.getLastD 0 ∨
       buf.length < buf.getLastD 0 ∨
       ∃ b ∈ buf.drop (buf.length - buf.getLastD 0), b ≠ buf.getLastD 0) := by
  by_cases h1 : buf = []
  · subst h1
    constructor
    · intro _
      exact Or.inl rfl
    · intro _
      exact ⟨_, rfl⟩
  · rw [show pkcs7Unpad buf = (
      let padLen := buf.getLastD 0
      if padLen < 1 ∨ 16 < padLen then
        Except.error "Invalid padding: pad byte out of range".toList
      else if buf.length < padLen then
        Except.error "Invalid padding: buffer too short".toList
      else if (buf.drop (buf.length - padLen)).all (fun b => b = padLen) then
        Except.ok (buf.take (buf.length - padLen))
      else
        Except.error "Invalid padding: incorrect padding bytes".toList) from by
      simp only [pkcs7Unpad]
      rw [if_neg (show ¬ (buf.isEmpty = true) from by
        simp [List.isEmpty_iff, h1])]]
    by_cases h2 : buf.getLastD 0 < 1 ∨ 16 < buf.getLastD 0
    · simp only [if_pos h2]
      constructor
      · intro _
        rcases h2 with h2 | h2
        · exact Or.inr (Or.inl h2)
        · exact Or.inr (Or.inr (Or.inl h2))
      · intro _
        exact ⟨_, rfl⟩
    · simp only [if_neg h2]
      by_cases h3 : buf.length < buf.getLastD 0
      · simp only [if_pos h3]
        constructor
        · intro _
          exact Or.inr (Or.inr (Or.inr (Or.inl h3)))
        · intro _
          exact ⟨_, rfl⟩
      · simp only [if_neg h3]
        by_cases h4 : (buf.drop (buf.length - buf.getLastD 0)).all
            (fun b => b = buf.getLastD 0)
        · simp only [if_pos h4]
          rw [List.all_eq_true] at h4
          constructor
          · rintro ⟨e, he⟩
            exact absurd he (by simp)
          · intro hcond
            exfalso
            rcases hcond with hc | hc | hc | hc | ⟨b, hb, hbne⟩
            · exact h1 hc
            · exact h2 (Or.inl hc)
            · exact h2 (Or.inr hc)
            · exact h3 hc
            · exact hbne (of_decide_eq_true (h4 b hb))
        · simp only [if_neg h4]
          constructor
          · intro _
            rw [List.all_eq_true] at h4
            push_neg at h4
            obtain ⟨b, hb, hbne⟩ := h4
            exact Or.inr (Or.inr (Or.inr (Or.inr ⟨b, hb, by simpa using hbne⟩)))
          · intro _
            exact ⟨_, rfl⟩

theorem pkcs7Unpad_ok (buf : List Nat)
    (h1 : buf ≠ []) (h2 : 1 ≤ buf.getLastD 0) (h3 : buf.getLastD 0 ≤ 16)
    (h4 : buf.getLastD 0 ≤ buf.length)
    (h5 : ∀ b ∈ buf.drop (buf.length - buf.getLastD 0), b = buf.getLastD 0) :
    pkcs7Unpad buf =
      Except.ok (buf.take (buf.length - buf.getLastD 0)) := by
  simp only [pkcs7Unpad]
  rw [if_neg (show ¬ (buf.isEmpty = true) from by simp [List.isEmpty_iff, h1])]
  rw [if_neg (show ¬ (buf.getLastD 0 < 1 ∨ 16 < buf.getLastD 0) by omega)]
  rw [if_neg (show ¬ (buf.length < buf.getLastD 0) by omega)]
  rw [if_pos (show ((buf.drop (buf.length - buf.getLastD 0)).all
      (fun b => b = buf.getLastD 0)) = true from by
    rw [List.all_eq_true]
    intro b hb
    simp [h5 b hb])]

theorem pkcs7Unpad_error_messages (buf : List Nat) (e : List Char)
    (h : pkcs7Unpad buf = Except.error e) :
    e = "Invalid padding: empty buffer".toList ∨
    e = "Invalid padding: pad byte out of range".toList ∨
    e = "Invalid padding: buffer too short".toList ∨
    e = "Invalid padding: incorrect padding bytes".toList := by
  simp only [pkcs7Unpad] at h
  split at h
  · exact Or.inl (Except.error.inj h).symm
  · split at h
    · exact Or.inr (Or.inl (Except.error.inj h).symm)
    · split at h
      · exact Or.inr (Or.inr (Or.inl (Except.error.inj h).symm))
      · split at h
        · exact absurd h (by simp)
        · exact Or.inr (Or.inr (Or.inr (Except.error.inj h).symm))

-- Claim theorems.

/-- C1: for every non-empty plaintext byte string, every non-empty password,
and every 32-byte salt the random generator may draw during encryption,
`decryptVaultString` applied to the envelope produced by `encryptVaultString`
with the same password succeeds and returns exactly the original plaintext
(in particular for 1-byte plaintexts, block-multiple lengths and multi-byte
UTF-8 plaintexts, which are particular byte strings). -/
theorem c1_roundtrip (salt pt pw : List Nat)
    (hpt : pt ≠ []) (hpw : pw ≠ []) (hptB : Bytes pt)
    (hslen : salt.length = 32) (hsB : Bytes salt) :
    ∃ env, encryptVaultString salt pt pw = Except.ok env ∧
      decryptVaultString env pw = Except.ok pt :=
  ⟨formatVaultData salt (encTag salt pt pw) (encCiphertext salt pt pw),
   encryptVaultString_ok salt pt pw hpt hpw,
   decryptVaultString_formatVaultData salt pt pw hpt hpw hptB hslen hsB⟩

/-- Witness for C1 at the UTF-8 bytes of `"Hello 世界 🌍"`, password bytes
`"pw"`, and the salt `0,1,...,31`. -/
theorem c1_roundtrip_witness :
    ([72, 101, 108, 108, 111, 32, 228, 184, 150, 231, 149, 140, 32,
      240, 159, 140, 141] : List Nat) ≠ [] ∧
    ([112, 119] : List Nat) ≠ [] ∧
    Bytes [72, 101, 108, 108, 111, 32, 228, 184, 150, 231, 149, 140, 32,
      240, 159, 140, 141] ∧
    (List.range 32).length = 32 ∧ Bytes (List.range 32) ∧
    (∃ env, encryptVaultString (List.range 32)
        [72, 101, 108, 108, 111, 32, 228, 184, 150, 231, 149, 140, 32,
         240, 159, 140, 141] [112, 119] = Except.ok env ∧
      decryptVaultString env [112, 119] = Except.ok
        [72, 101, 108, 108, 111, 32, 228, 184, 150, 231, 149, 140, 32,
         240, 159, 140, 141]) :=
  ⟨by decide, by decide, by decide, by decide, by decide,
   c1_roundtrip (List.range 32) _ _ (by decide) (by decide) (by decide)
     (by decide) (by decide)⟩

/-- C4: `deriveKeys` is PBKDF2 with HMAC-SHA256 as the pseudorandom function,
10,000 iterations, 80 requested bytes, split `[0,32)` / `[32,64)` / `[64,80)`
into encryption key, HMAC key and IV; the three outputs have lengths 32, 32
and 16; and the function is deterministic. -/
theorem c4_deriveKeys_spec :
    (∀ password salt : List Nat,
      deriveKeys password salt =
        { encryptionKey := (pbkdf2 hmacSha256 32 password salt 10000 80).take 32,
          hmacKey :=
            ((pbkdf2 hmacSha256 32 password salt 10000 80).drop 32).take 32,
          iv := ((pbkdf2 hmacSha256 32 password salt 10000 80).drop 64).take 16 } ∧
      (deriveKeys password salt).encryptionKey.length = 32 ∧
      (deriveKeys password salt).hmacKey.length = 32 ∧
      (deriveKeys password salt).iv.length = 16) ∧
    (∀ p s p' s' : List Nat, p = p' → s = s' →
      deriveKeys p s = deriveKeys p' s') := by
  constructor
  · intro password salt
    exact ⟨rfl, deriveKeys_lengths password salt⟩
  · intro p s p' s' hp hs
    rw [hp, hs]

/-- Witness for C4: determinism applied at concrete byte strings. -/
theorem c4_deriveKeys_spec_witness :
    ([1, 2] : List Nat) = [1, 2] ∧ ([3] : List Nat) = [3] ∧
    deriveKeys [1, 2] [3] = deriveKeys [1, 2] [3] :=
  ⟨rfl, rfl, c4_deriveKeys_spec.2 [1, 2] [3] [1, 2] [3] rfl rfl⟩

/-- C5: `pkcs7Pad` appends exactly `n` bytes of value `n` with
`n = 16 - len mod 16`, `1 ≤ n ≤ 16`; `pkcs7Unpad` fails exactly when the
buffer is empty, its last byte is outside `[1,16]`, the buffer is shorter
than the last byte, or one of the final `n` bytes differs from `n`, and
otherwise returns the buffer without its last `n` bytes. -/
theorem c5_pkcs7_spec :
    (∀ data : List Nat,
      pkcs7Pad data = data ++
        List.replicate (16 - data.length % 16) (16 - data.length % 16) ∧
      1 ≤ 16 - data.length % 16 ∧ 16 - data.length % 16 ≤ 16) ∧
    (∀ buf : List Nat,
      ((∃ e, pkcs7Unpad buf = Except.error e) ↔
        (buf = [] ∨ buf.getLastD 0 < 1 ∨ 16 < buf.getLastD 0 ∨
         buf.length < buf.getLastD 0 ∨
         ∃ b ∈ buf.drop (buf.length - buf.getLastD 0), b ≠ buf.getLastD 0)) ∧
      (¬ (buf = [] ∨ buf.getLastD 0 < 1 ∨ 16 < buf.getLastD 0 ∨
          buf.length < buf.getLastD 0 ∨
          ∃ b ∈ buf.drop (buf.length - buf.getLastD 0), b ≠ buf.getLastD 0) →
        pkcs7Unpad buf =
          Except.ok (buf.take (buf.length - buf.getLastD 0)))) := by
  constructor
  · intro data
    exact ⟨pkcs7Pad_eq data, pkcs7Pad_padLen_bounds data⟩
  · intro buf
    refine ⟨pkcs7Unpad_error_iff buf, ?_⟩
    intro hnot
    push_neg at hnot
    obtain ⟨h1, h2, h3, h4, h5⟩ := hnot
    exact pkcs7Unpad_ok buf h1 (by omega) (by omega) (by omega)
      (fun b hb => by
        have := h5 b hb
        omega)

/-- Witness for C5: the success clause applied at a concrete padded buffer. -/
theorem c5_pkcs7_spec_witness :
    (¬ (([7, 7, 2, 2] : List Nat) = [] ∨
        ([7, 7, 2, 2] : List Nat).getLastD 0 < 1 ∨
        16 < ([7, 7, 2, 2] : List Nat).getLastD 0 ∨
        ([7, 7, 2, 2] : List Nat).length < ([7, 7, 2, 2] : List Nat).getLastD 0 ∨
        ∃ b ∈ ([7, 7, 2, 2] : List Nat).drop
          (([7, 7, 2, 2] : List Nat).length - ([7, 7, 2, 2] : List Nat).getLastD 0),
          b ≠ ([7, 7, 2, 2] : List Nat).getLastD 0)) ∧
    pkcs7Unpad [7, 7, 2, 2] = Except.ok [7, 7] :=
  ⟨by decide, ((c5_pkcs7_spec.2 [7, 7, 2, 2]).2 (by decide))⟩

/-- C7: `verifyHmac` returns false on length mismatch, returns true exactly
when the buffers are byte-for-byte equal, and defers to the dedicated
constant-time equality primitive (modelled with a cost semantics) whose cost
depends only on the common length, never on the position of the first
differing byte; only the structural length check short-circuits. -/
theorem c7_verifyHmac_spec (expected actual : List Nat) :
    (expected.length ≠ actual.length → verifyHmac expected actual = false) ∧
    (verifyHmac expected actual = true ↔ expected = actual) ∧
    (verifyHmac expected actual =
      if expected.length ≠ actual.length then false
      else (timingSafeEqualModel expected actual).1) ∧
    (∀ a' b' : List Nat, expected.length = actual.length →
      a'.length = b'.length → a'.length = expected.length →
      (timingSafeEqualModel expected actual).2 =
        (timingSafeEqualModel a' b').2) := by
  refine ⟨?_, verifyHmac_eq_true_iff expected actual, rfl, ?_⟩
  · intro h
    simp [verifyHmac, h]
  · intro a' b' h1 h2 h3
    simp only [timingSafeEqualModel, List.length_zipWith]
    omega

/-- Witness for C7 at two differing equal-length buffers. -/
theorem c7_verifyHmac_spec_witness :
    (([1, 2] : List Nat).length ≠ ([9] : List Nat).length →
      verifyHmac [1, 2] [9] = false) ∧
    (verifyHmac [1, 2] [9] = true ↔ ([1, 2] : List Nat) = [9]) ∧
    (timingSafeEqualModel [1, 2] [3, 4]).2 = (timingSafeEqualModel [5, 6] [5, 7]).2 :=
  ⟨(c7_verifyHmac_spec [1, 2] [9]).1,
   (c7_verifyHmac_spec [1, 2] [9]).2.1,
   (c7_verifyHmac_spec [1, 2] [3, 4]).2.2.2 [5, 6] [5, 7] (by decide)
     (by decide) (by decide)⟩

/-- C8: for a fixed non-empty plaintext and password, two encryption calls
whose generated salts differ produce different envelope strings, and both
envelopes decrypt back to the same plaintext with the original password. -/
theorem c8_salt_freshness (pt pw s1 s2 : List Nat)
    (hpt : pt ≠ []) (hpw : pw ≠ []) (hptB : Bytes pt)
    (hs1len : s1.length = 32) (hs1B : Bytes s1)
    (hs2len : s2.length = 32) (hs2B : Bytes s2) (hne : s1 ≠ s2) :
    ∃ e1 e2, encryptVaultString s1 pt pw = Except.ok e1 ∧
      encryptVaultString s2 pt pw = Except.ok e2 ∧ e1 ≠ e2 ∧
      decryptVaultString e1 pw = Except.ok pt ∧
      decryptVaultString e2 pw = Except.ok pt := by
  refine ⟨formatVaultData s1 (encTag s1 pt pw) (encCiphertext s1 pt pw),
    formatVaultData s2 (encTag s2 pt pw) (encCiphertext s2 pt pw),
    encryptVaultString_ok s1 pt pw hpt hpw,
    encryptVaultString_ok s2 pt pw hpt hpw, ?_,
    decryptVaultString_formatVaultData s1 pt pw hpt hpw hptB hs1len hs1B,
    decryptVaultString_formatVaultData s2 pt pw hpt hpw hptB hs2len hs2B⟩
  intro heq
  have hp1 := parseVaultData_formatVaultData s1 (encTag s1 pt pw)
    (encCiphertext s1 pt pw) hs1len hs1B (hmacSha256_length ..)
    (hmacSha256_bytes _ _) (encCiphertext_ne_nil s1 pt pw)
    (encCiphertext_bytes s1 pt pw hptB)
  have hp2 := parseVaultData_formatVaultData s2 (encTag s2 pt pw)
    (encCiphertext s2 pt pw) hs2len hs2B (hmacSha256_length ..)
    (hmacSha256_bytes _ _) (encCiphertext_ne_nil s2 pt pw)
    (encCiphertext_bytes s2 pt pw hptB)
  rw [heq, hp2] at hp1
  have := (Except.ok.inj hp1)
  have hs : s2 = s1 := congrArg Prod.fst this
  exact hne hs.symm

/-- Witness for C8 at two concrete distinct salts. -/
theorem c8_salt_freshness_witness :
    (([5] : List Nat) ≠ [] ∧ ([7] : List Nat) ≠ [] ∧ Bytes [5] ∧
      (List.range 32).length = 32 ∧ Bytes (List.range 32) ∧
      (List.replicate 32 9).length = 32 ∧ Bytes (List.replicate 32 9) ∧
      List.range 32 ≠ List.replicate 32 9) ∧
    (∃ e1 e2, encryptVaultString (List.range 32) [5] [7] = Except.ok e1 ∧
      encryptVaultString (List.replicate 32 9) [5] [7] = Except.ok e2 ∧
      e1 ≠ e2 ∧ decryptVaultString e1 [7] = Except.ok [5] ∧
      decryptVaultString e2 [7] = Except.ok [5]) :=
  ⟨⟨by decide, by decide, by decide, by decide, by decide, by decide,
    by decide, by decide⟩,
   c8_salt_freshness [5] [7] (List.range 32) (List.replicate 32 9)
     (by decide) (by decide) (by decide) (by decide) (by decide) (by decide)
     (by decide) (by decide)⟩

/-- C6: every envelope produced by `encryptVaultString` splits on newlines
into the exact header line `$ANSIBLE_VAULT;1.1;AES256` followed by one or
more body lines of at most 80 lowercase hex digits (all lines except
possibly the last exactly 80), and the concatenated body hex-decodes to
`hex(salt) ++ "\n" ++ hex(authTag) ++ "\n" ++ hex(ciphertext)` as an ASCII
byte string — each field hex-encoded individually, the joined string
hex-encoded a second time. -/
theorem c6_envelope_format (salt pt pw : List Nat)
    (hpt : pt ≠ []) (hpw : pw ≠ []) (hptB : Bytes pt) (hsB : Bytes salt) :
    expectedHeader = "$ANSIBLE_VAULT;1.1;AES256".toList ∧
    ∃ env bodyLines,
      encryptVaultString salt pt pw = Except.ok env ∧
      splitSep '\n' env = expectedHeader :: bodyLines ∧
      bodyLines ≠ [] ∧
      (∀ l ∈ bodyLines, l.length ≤ 80 ∧ ∀ c ∈ l, isLowerHexChar c = true) ∧
      (∀ l ∈ bodyLines.dropLast, l.length = 80) ∧
      hexDecodePairsC bodyLines.flatten =
        asciiBytes (hexEncode salt ++ '\n' :: hexEncode (encTag salt pt pw)
          ++ '\n' :: hexEncode (encCiphertext salt pt pw)) := by
  have htB : Bytes (encTag salt pt pw) := hmacSha256_bytes _ _
  have hcB : Bytes (encCiphertext salt pt pw) := encCiphertext_bytes salt pt pw hptB
  refine ⟨by decide,
    formatVaultData salt (encTag salt pt pw) (encCiphertext salt pt pw),
    chunks80 (bodyHexData salt (encTag salt pt pw) (encCiphertext salt pt pw)),
    encryptVaultString_ok salt pt pw hpt hpw,
    formatVaultData_splitSep salt _ _ hsB htB hcB,
    chunks80_ne_nil _ (bodyHexData_ne_nil _ _ _), ?_, ?_, ?_⟩
  · intro l hl
    refine ⟨chunks80_mem_length_le _ l hl, ?_⟩
    intro c hcm
    have hmem := chunks80_mem_subset _ l hl c hcm
    obtain ⟨n, hn, rfl⟩ := mem_hexEncode _
      (innerAscii_bytes salt _ _ hsB htB hcB) c hmem
    have := (hexDigitChar_spec n hn).2.2.2.2.2.2.2.2.2
    simp only [isLowerHexChar, decide_eq_true_eq]
    exact this
  · intro l hl
    exact chunks80_dropLast_length _ l hl
  · rw [chunks80_flatten]
    exact hexDecodePairsC_hexEncode _ (innerAscii_bytes salt _ _ hsB htB hcB)

/-- Witness for C6 at a concrete plaintext, password and salt. -/
theorem c6_envelope_format_witness :
    (([5] : List Nat) ≠ [] ∧ ([7] : List Nat) ≠ [] ∧ Bytes [5] ∧
      Bytes (List.range 32)) ∧
    (expectedHeader = "$ANSIBLE_VAULT;1.1;AES256".toList ∧
     ∃ env bodyLines,
      encryptVaultString (List.range 32) [5] [7] = Except.ok env ∧
      splitSep '\n' env = expectedHeader :: bodyLines ∧
      bodyLines ≠ [] ∧
      (∀ l ∈ bodyLines, l.length ≤ 80 ∧ ∀ c ∈ l, isLowerHexChar c = true) ∧
      (∀ l ∈ bodyLines.dropLast, l.length = 80) ∧
      hexDecodePairsC bodyLines.flatten =
        asciiBytes (hexEncode (List.range 32) ++
          '\n' :: hexEncode (encTag (List.range 32) [5] [7])
          ++ '\n' :: hexEncode (encCiphertext (List.range 32) [5] [7]))) :=
  ⟨⟨by decide, by decide, by decide, by decide⟩,
   c6_envelope_format (List.range 32) [5] [7] (by decide) (by decide)
     (by decide) (by decide)⟩

-- Error sanitization facts.

theorem sanitize_msgHmacFailed :
    sanitizeDecryptError msgHmacFailed = msgDecryptFailed := by decide

theorem sanitize_padding_message (buf : List Nat) (e : List Char)
    (h : pkcs7Unpad buf = Except.error e) :
    sanitizeDecryptError e = msgDecryptFailed := by
  rcases pkcs7Unpad_error_messages buf e h with h | h | h | h <;>
    (subst h; decide)

theorem decryptVaultRawWith_parse_ok
    (cipher : List Nat → List Nat → List Nat → List Nat)
    (input : List Char) (pw salt tag ct : List Nat)
    (hin : input ≠ []) (hpw : pw ≠ [])
    (hparse : parseVaultData input = Except.ok (salt, tag, ct)) :
    decryptVaultRawWith cipher input pw =
      (if ¬ verifyHmac tag
          (hmacSha256 (deriveKeys pw salt).hmacKey ct) then
        Except.error msgHmacFailed
      else
        match pkcs7Unpad (cipher (deriveKeys pw salt).encryptionKey
            (deriveKeys pw salt).iv ct) with
        | Except.error e => Except.error e
        | Except.ok plaintext => Except.ok plaintext) := by
  simp only [decryptVaultRawWith, List.isEmpty_iff, hin, hpw, if_false,
    hparse]

/-- C2: after a successful parse, `decryptVaultString` computes the
HMAC-SHA256 tag over the extracted ciphertext and verifies it against the
stored tag before any decryption: on a mismatch it fails — with the generic
message and for every possible cipher engine, i.e. without invoking the
cipher — and a padding failure occurring after a successful tag match is
reported with the exact same generic message, so the caller cannot
distinguish the two causes. -/
theorem c2_authenticate_then_decrypt
    (cipher : List Nat → List Nat → List Nat → List Nat)
    (input : List Char) (pw salt tag ct : List Nat)
    (hin : input ≠ []) (hpw : pw ≠ [])
    (hparse : parseVaultData input = Except.ok (salt, tag, ct)) :
    (verifyHmac tag (hmacSha256 (deriveKeys pw salt).hmacKey ct) = false →
      decryptVaultStringWith cipher input pw =
        Except.error msgDecryptFailed) ∧
    (verifyHmac tag (hmacSha256 (deriveKeys pw salt).hmacKey ct) = true →
      (∃ e, pkcs7Unpad (aesCtrTransform (deriveKeys pw salt).encryptionKey
          (deriveKeys pw salt).iv ct) = Except.error e) →
      decryptVaultString input pw = Except.error msgDecryptFailed) := by
  constructor
  · intro hv
    have hraw := decryptVaultRawWith_parse_ok cipher input pw salt tag ct
      hin hpw hparse
    rw [if_pos (by simp [hv])] at hraw
    simp only [decryptVaultStringWith, hraw, sanitize_msgHmacFailed]
  · intro hv hunpad
    obtain ⟨e, he⟩ := hunpad
    have hraw := decryptVaultRawWith_parse_ok aesCtrTransform input pw salt
      tag ct hin hpw hparse
    rw [if_neg (by simp [hv])] at hraw
    rw [he] at hraw
    simp only [decryptVaultString, decryptVaultStringWith, hraw,
      sanitize_padding_message _ e he]

set_option maxRecDepth 100000 in
/-- Witness for C2: a concrete single-body-line envelope that parses
successfully. -/
theorem c2_authenticate_then_decrypt_witness :
    (("$ANSIBLE_VAULT;1.1;AES256".toList ++
        '\n' :: bodyHexData (List.range 32) (List.replicate 32 0) [1]) ≠ [] ∧
     ([7] : List Nat) ≠ [] ∧
     parseVaultData ("$ANSIBLE_VAULT;1.1;AES256".toList ++
        '\n' :: bodyHexData (List.range 32) (List.replicate 32 0) [1]) =
       Except.ok (List.range 32, List.replicate 32 0, [1])) ∧
    ((verifyHmac (List.replicate 32 0)
        (hmacSha256 (deriveKeys [7] (List.range 32)).hmacKey [1]) = false →
      decryptVaultStringWith (fun _ _ x => x)
        ("$ANSIBLE_VAULT;1.1;AES256".toList ++
          '\n' :: bodyHexData (List.range 32) (List.replicate 32 0) [1]) [7] =
        Except.error msgDecryptFailed) ∧
     (verifyHmac (List.replicate 32 0)
        (hmacSha256 (deriveKeys [7] (List.range 32)).hmacKey [1]) = true →
      (∃ e, pkcs7Unpad (aesCtrTransform
          (deriveKeys [7] (List.range 32)).encryptionKey
          (deriveKeys [7] (List.range 32)).iv [1]) = Except.error e) →
      decryptVaultString ("$ANSIBLE_VAULT;1.1;AES256".toList ++
          '\n' :: bodyHexData (List.range 32) (List.replicate 32 0) [1]) [7] =
        Except.error msgDecryptFailed)) :=
  ⟨⟨by decide, by decide, by decide⟩,
   c2_authenticate_then_decrypt (fun _ _ x => x) _ [7] (List.range 32)
     (List.replicate 32 0) [1] (by decide) (by decide) (by decide)⟩

theorem parseVaultData_unfold (input : List Char) :
    parseVaultData input =
      (if (parseLines input).length < 2 then
        Except.error msgTooShort
      else if normalizeHeader ((parseLines input).getD 0 []) ≠ expectedHeader
          then
        Except.error (msgBadHeader ((parseLines input).getD 0 []))
      else if ¬ (¬ (parseHexData input).isEmpty ∧
          (parseHexData input).all isHexChar) then
        Except.error msgNonHex
      else if (parseParts input).length ≠ 3 then
        Except.error msgPartCount
      else if ¬ (((parseParts input).getD 0 []).all isHexByte ∧
          ((parseParts input).getD 1 []).all isHexByte ∧
          ((parseParts input).getD 2 []).all isHexByte) then
        Except.error msgCompNonHex
      else if (hexDecodePairsB ((parseParts input).getD 0 [])).length ≠
          SALT_LENGTH then
        Except.error (msgSaltLen
          (hexDecodePairsB ((parseParts input).getD 0 [])).length)
      else if (hexDecodePairsB ((parseParts input).getD 1 [])).length ≠
          HMAC_LENGTH then
        Except.error (msgHmacLen
          (hexDecodePairsB ((parseParts input).getD 1 [])).length)
      else if (hexDecodePairsB ((parseParts input).getD 2 [])).isEmpty then
        Except.error msgCtEmpty
      else
        Except.ok (hexDecodePairsB ((parseParts input).getD 0 []),
          hexDecodePairsB ((parseParts input).getD 1 []),
          hexDecodePairsB ((parseParts input).getD 2 []))) := rfl

theorem parse_ok_iff (input : List Char) :
    (∃ s t c, parseVaultData input = Except.ok (s, t, c)) ↔
      VaultWellFormed input := by
  rw [parseVaultData_unfold input]
  constructor
  · rintro ⟨s, t, c, h⟩
    split_ifs at h with h1 h2 h3 h4 h5 h6 h7 h8
    push_neg at h3 h5
    refine ⟨by omega, by simpa using h2, ?_, ?_, by omega,
      ?_, ?_, ?_, by simpa [SALT_LENGTH] using h6,
      by simpa [HMAC_LENGTH] using h7, ?_⟩
    · intro hh
      exact absurd (List.isEmpty_iff.mpr hh) (by simpa using h3.1)
    · exact List.all_eq_true.mp h3.2
    · exact List.all_eq_true.mp h5.1
    · exact List.all_eq_true.mp h5.2.1
    · exact List.all_eq_true.mp h5.2.2
    · intro hh
      exact absurd (List.isEmpty_iff.mpr hh) (by simpa using h8)
  · rintro ⟨c1, c2, c3, c4, c5, c6, c7, c8, c9, c10, c11⟩
    rw [if_neg (by omega), if_neg (not_not_intro c2),
      if_neg (show ¬ ¬ (¬ (parseHexData input).isEmpty ∧
          (parseHexData input).all isHexChar) from by
        push_neg
        exact ⟨fun hh => c3 (List.isEmpty_iff.mp hh),
          List.all_eq_true.mpr c4⟩),
      if_neg (by omega),
      if_neg (show ¬ ¬ (((parseParts input).getD 0 []).all isHexByte ∧
          ((parseParts input).getD 1 []).all isHexByte ∧
          ((parseParts input).getD 2 []).all isHexByte) from by
        push_neg
        exact ⟨List.all_eq_true.mpr c6, List.all_eq_true.mpr c7,
          List.all_eq_true.mpr c8⟩),
      if_neg (by simp only [SALT_LENGTH]; omega),
      if_neg (by simp only [HMAC_LENGTH]; omega),
      if_neg (show ¬ ((hexDecodePairsB ((parseParts input).getD 2 [])).isEmpty
          = true) from fun hh => c11 (List.isEmpty_iff.mp hh))]
    exact ⟨_, _, _, rfl⟩

theorem parse_ok_val (input : List Char) (s t c : List Nat)
    (h : parseVaultData input = Except.ok (s, t, c)) :
    s = hexDecodePairsB ((parseParts input).getD 0 []) ∧
    t = hexDecodePairsB ((parseParts input).getD 1 []) ∧
    c = hexDecodePairsB ((parseParts input).getD 2 []) := by
  rw [parseVaultData_unfold input] at h
  split_ifs at h with h1 h2 h3 h4 h5 h6 h7 h8
  have h' := Except.ok.inj h
  exact ⟨(congrArg (fun p => p.1) h').symm,
    (congrArg (fun p => p.2.1) h').symm,
    (congrArg (fun p => p.2.2) h').symm⟩

-- First-violation error results of parseVaultData.

theorem parse_err_tooShort (input : List Char)
    (h : (parseLines input).length < 2) :
    parseVaultData input = Except.error msgTooShort := by
  rw [parseVaultData_unfold input, if_pos h]

theorem parse_err_header (input : List Char)
    (h1 : 2 ≤ (parseLines input).length)
    (h2 : normalizeHeader ((parseLines input).getD 0 []) ≠ expectedHeader) :
    parseVaultData input =
      Except.error (msgBadHeader ((parseLines input).getD 0 [])) := by
  rw [parseVaultData_unfold input, if_neg (by omega), if_pos h2]

theorem parse_err_nonHex (input : List Char)
    (h1 : 2 ≤ (parseLines input).length)
    (h2 : normalizeHeader ((parseLines input).getD 0 []) = expectedHeader)
    (h3 : ¬ (parseHexData input ≠ [] ∧
      ∀ ch ∈ parseHexData input, isHexChar ch = true)) :
    parseVaultData input = Except.error msgNonHex := by
  rw [parseVaultData_unfold input, if_neg (by omega),
    if_neg (not_not_intro h2), if_pos]
  intro ⟨ha, hb⟩
  apply h3
  constructor
  · intro hh
    exact absurd (List.isEmpty_iff.mpr hh) (by simpa using ha)
  · exact List.all_eq_true.mp hb

theorem parse_err_partCount (input : List Char)
    (h1 : 2 ≤ (parseLines input).length)
    (h2 : normalizeHeader ((parseLines input).getD 0 []) = expectedHeader)
    (h3 : parseHexData input ≠ [])
    (h4 : ∀ ch ∈ parseHexData input, isHexChar ch = true)
    (h5 : (parseParts input).length ≠ 3) :
    parseVaultData input = Except.error msgPartCount := by
  rw [parseVaultData_unfold input, if_neg (by omega),
    if_neg (not_not_intro h2),
    if_neg (not_not_intro ⟨fun hh => h3 (List.isEmpty_iff.mp hh),
      List.all_eq_true.mpr h4⟩),
    if_pos h5]

theorem parse_err_compNonHex (input : List Char)
    (h1 : 2 ≤ (parseLines input).length)
    (h2 : normalizeHeader ((parseLines input).getD 0 []) = expectedHeader)
    (h3 : parseHexData input ≠ [])
    (h4 : ∀ ch ∈ parseHexData input, isHexChar ch = true)
    (h5 : (parseParts input).length = 3)
    (h6 : ¬ ((∀ b ∈ (parseParts input).getD 0 [], isHexByte b = true) ∧
          (∀ b ∈ (parseParts input).getD 1 [], isHexByte b = true) ∧
          (∀ b ∈ (parseParts input).getD 2 [], isHexByte b = true))) :
    parseVaultData input = Except.error msgCompNonHex := by
  rw [parseVaultData_unfold input, if_neg (by omega),
    if_neg (not_not_intro h2),
    if_neg (not_not_intro ⟨fun hh => h3 (List.isEmpty_iff.mp hh),
      List.all_eq_true.mpr h4⟩),
    if_neg (by omega), if_pos]
  intro ⟨ha, hb, hc⟩
  exact h6 ⟨List.all_eq_true.mp ha, List.all_eq_true.mp hb,
    List.all_eq_true.mp hc⟩

theorem parse_err_saltLen (input : List Char)
    (h1 : 2 ≤ (parseLines input).length)
    (h2 : normalizeHeader ((parseLines input).getD 0 []) = expectedHeader)
    (h3 : parseHexData input ≠ [])
    (h4 : ∀ ch ∈ parseHexData input, isHexChar ch = true)
    (h5 : (parseParts input).length = 3)
    (h6 : ∀ b ∈ (parseParts input).getD 0 [], isHexByte b = true)
    (h7 : ∀ b ∈ (parseParts input).getD 1 [], isHexByte b = true)
    (h8 : ∀ b ∈ (parseParts input).getD 2 [], isHexByte b = true)
    (h9 : (hexDecodePairsB ((parseParts input).getD 0 [])).length ≠ 32) :
    parseVaultData input = Except.error
      (msgSaltLen (hexDecodePairsB ((parseParts input).getD 0 [])).length) := by
  rw [parseVaultData_unfold input, if_neg (by omega),
    if_neg (not_not_intro h2),
    if_neg (not_not_intro ⟨fun hh => h3 (List.isEmpty_iff.mp hh),
      List.all_eq_true.mpr h4⟩),
    if_neg (by omega),
    if_neg (not_not_intro ⟨List.all_eq_true.mpr h6, List.all_eq_true.mpr h7,
      List.all_eq_true.mpr h8⟩),
    if_pos (by simpa [SALT_LENGTH] using h9)]

theorem parse_err_hmacLen (input : List Char)
    (h1 : 2 ≤ (parseLines input).length)
    (h2 : normalizeHeader ((parseLines input).getD 0 []) = expectedHeader)
    (h3 : parseHexData input ≠ [])
    (h4 : ∀ ch ∈ parseHexData input, isHexChar ch = true)
    (h5 : (parseParts input).length = 3)
    (h6 : ∀ b ∈ (parseParts input).getD 0 [], isHexByte b = true)
    (h7 : ∀ b ∈ (parseParts input).getD 1 [], isHexByte b = true)
    (h8 : ∀ b ∈ (parseParts input).getD 2 [], isHexByte b = true)
    (h9 : (hexDecodePairsB ((parseParts input).getD 0 [])).length = 32)
    (h10 : (hexDecodePairsB ((parseParts input).getD 1 [])).length ≠ 32) :
    parseVaultData input = Except.error
      (msgHmacLen (hexDecodePairsB ((parseParts input).getD 1 [])).length) := by
  rw [parseVaultData_unfold input, if_neg (by omega),
    if_neg (not_not_intro h2),
    if_neg (not_not_intro ⟨fun hh => h3 (List.isEmpty_iff.mp hh),
      List.all_eq_true.mpr h4⟩),
    if_neg (by omega),
    if_neg (not_not_intro ⟨List.all_eq_true.mpr h6, List.all_eq_true.mpr h7,
      List.all_eq_true.mpr h8⟩),
    if_neg (by simp only [SALT_LENGTH]; omega),
    if_pos (by simpa [HMAC_LENGTH] using h10)]

theorem parse_err_ctEmpty (input : List Char)
    (h1 : 2 ≤ (parseLines input).length)
    (h2 : normalizeHeader ((parseLines input).getD 0 []) = expectedHeader)
    (h3 : parseHexData input ≠ [])
    (h4 : ∀ ch ∈ parseHexData input, isHexChar ch = true)
    (h5 : (parseParts input).length = 3)
    (h6 : ∀ b ∈ (parseParts input).getD 0 [], isHexByte b = true)
    (h7 : ∀ b ∈ (parseParts input).getD 1 [], isHexByte b = true)
    (h8 : ∀ b ∈ (parseParts input).getD 2 [], isHexByte b = true)
    (h9 : (hexDecodePairsB ((parseParts input).getD 0 [])).length = 32)
    (h10 : (hexDecodePairsB ((parseParts input).getD 1 [])).length = 32)
    (h11 : hexDecodePairsB ((parseParts input).getD 2 []) = []) :
    parseVaultData input = Except.error msgCtEmpty := by
  rw [parseVaultData_unfold input, if_neg (by omega),
    if_neg (not_not_intro h2),
    if_neg (not_not_intro ⟨fun hh => h3 (List.isEmpty_iff.mp hh),
      List.all_eq_true.mpr h4⟩),
    if_neg (by omega),
    if_neg (not_not_intro ⟨List.all_eq_true.mpr h6, List.all_eq_true.mpr h7,
      List.all_eq_true.mpr h8⟩),
    if_neg (by simp only [SALT_LENGTH]; omega),
    if_neg (by simp only [HMAC_LENGTH]; omega),
    if_pos (List.isEmpty_iff.mpr h11)]

-- Distinctness of the format-error messages.

theorem msgBadHeader_take32 (hdr : List Char) :
    (msgBadHeader hdr).take 32 = "Invalid vault format: expected \"".toList := by
  simp only [msgBadHeader]
  rw [List.take_append_of_le_length (by
    simp only [List.length_append]
    have : 32 ≤ ("Invalid vault format: expected \"$ANSIBLE_VAULT;1.1;AES256\", got \"".toList).length := by decide
    omega)]
  rw [List.take_append_of_le_length (by decide)]
  decide

theorem msgSaltLen_take32 (n : Nat) :
    (msgSaltLen n).take 32 =
      "Invalid vault format: salt shoul".toList := by
  simp only [msgSaltLen]
  rw [List.take_append_of_le_length (by decide)]
  decide

theorem msgHmacLen_take32 (n : Nat) :
    (msgHmacLen n).take 32 =
      "Invalid vault format: HMAC shoul".toList := by
  simp only [msgHmacLen]
  rw [List.take_append_of_le_length (by decide)]
  decide

theorem vaultMsgs_pairwise_ne (hdr : List Char) (n m : Nat) :
    List.Pairwise (fun a b => a ≠ b)
      [msgTooShort, msgBadHeader hdr, msgNonHex, msgPartCount, msgCompNonHex,
       msgSaltLen n, msgHmacLen m, msgCtEmpty] := by
  have h1 : List.Pairwise (fun a b => a ≠ b)
      (([msgTooShort, msgBadHeader hdr, msgNonHex, msgPartCount,
         msgCompNonHex, msgSaltLen n, msgHmacLen m,
         msgCtEmpty]).map (List.take 32)) := by
    simp only [List.map_cons, List.map_nil, msgBadHeader_take32,
      msgSaltLen_take32, msgHmacLen_take32]
    decide
  exact (List.pairwise_map.mp h1).imp
    (fun hab he => hab (congrArg (List.take 32) he))

/-- C3: `parseVaultData` succeeds exactly when, after trimming, there are at
least two newline-separated lines, the normalized first line equals
`$ANSIBLE_VAULT;1.1;AES256`, the whitespace-stripped joined body is a
non-empty string of hex digits, the once-hex-decoded inner payload splits on
newlines into exactly three parts, each part is a valid hex string, the
decoded salt is exactly 32 bytes, the decoded tag is exactly 32 bytes, and
the decoded ciphertext is non-empty; and at the first violated condition it
raises the corresponding descriptive format error, the messages being
pairwise distinct. -/
theorem c3_parse_validation (input : List Char) :
    ((∃ s t c, parseVaultData input = Except.ok (s, t, c)) ↔
      VaultWellFormed input) ∧
    ((parseLines input).length < 2 →
      parseVaultData input = Except.error msgTooShort) ∧
    (2 ≤ (parseLines input).length →
      normalizeHeader ((parseLines input).getD 0 []) ≠ expectedHeader →
      parseVaultData input =
        Except.error (msgBadHeader ((parseLines input).getD 0 []))) ∧
    (2 ≤ (parseLines input).length →
      normalizeHeader ((parseLines input).getD 0 []) = expectedHeader →
      ¬ (parseHexData input ≠ [] ∧
        ∀ ch ∈ parseHexData input, isHexChar ch = true) →
      parseVaultData input = Except.error msgNonHex) ∧
    (2 ≤ (parseLines input).length →
      normalizeHeader ((parseLines input).getD 0 []) = expectedHeader →
      parseHexData input ≠ [] →
      (∀ ch ∈ parseHexData input, isHexChar ch = true) →
      (parseParts input).length ≠ 3 →
      parseVaultData input = Except.error msgPartCount) ∧
    (2 ≤ (parseLines input).length →
      normalizeHeader ((parseLines input).getD 0 []) = expectedHeader →
      parseHexData input ≠ [] →
      (∀ ch ∈ parseHexData input, isHexChar ch = true) →
      (parseParts input).length = 3 →
      ¬ ((∀ b ∈ (parseParts input).getD 0 [], isHexByte b = true) ∧
         (∀ b ∈ (parseParts input).getD 1 [], isHexByte b = true) ∧
         (∀ b ∈ (parseParts input).getD 2 [], isHexByte b = true)) →
      parseVaultData input = Except.error msgCompNonHex) ∧
    (2 ≤ (parseLines input).length →
      normalizeHeader ((parseLines input).getD 0 []) = expectedHeader →
      parseHexData input ≠ [] →
      (∀ ch ∈ parseHexData input, isHexChar ch = true) →
      (parseParts input).length = 3 →
      (∀ b ∈ (parseParts input).getD 0 [], isHexByte b = true) →
      (∀ b ∈ (parseParts input).getD 1 [], isHexByte b = true) →
      (∀ b ∈ (parseParts input).getD 2 [], isHexByte b = true) →
      (hexDecodePairsB ((parseParts input).getD 0 [])).length ≠ 32 →
      parseVaultData input = Except.error
        (msgSaltLen (hexDecodePairsB ((parseParts input).getD 0 [])).length)) ∧
    (2 ≤ (parseLines input).length →
      normalizeHeader ((parseLines input).getD 0 []) = expectedHeader →
      parseHexData input ≠ [] →
      (∀ ch ∈ parseHexData input, isHexChar ch = true) →
      (parseParts input).length = 3 →
      (∀ b ∈ (parseParts input).getD 0 [], isHexByte b = true) →
      (∀ b ∈ (parseParts input).getD 1 [], isHexByte b = true) →
      (∀ b ∈ (parseParts input).getD 2 [], isHexByte b = true) →
      (hexDecodePairsB ((parseParts input).getD 0 [])).length = 32 →
      (hexDecodePairsB ((parseParts input).getD 1 [])).length ≠ 32 →
      parseVaultData input = Except.error
        (msgHmacLen (hexDecodePairsB ((parseParts input).getD 1 [])).length)) ∧
    (2 ≤ (parseLines input).length →
      normalizeHeader ((parseLines input).getD 0 []) = expectedHeader →
      parseHexData input ≠ [] →
      (∀ ch ∈ parseHexData input, isHexChar ch = true) →
      (parseParts input).length = 3 →
      (∀ b ∈ (parseParts input).getD 0 [], isHexByte b = true) →
      (∀ b ∈ (parseParts input).getD 1 [], isHexByte b = true) →
      (∀ b ∈ (parseParts input).getD 2 [], isHexByte b = true) →
      (hexDecodePairsB ((parseParts input).getD 0 [])).length = 32 →
      (hexDecodePairsB ((parseParts input).getD 1 [])).length = 32 →
      hexDecodePairsB ((parseParts input).getD 2 []) = [] →
      parseVaultData input = Except.error msgCtEmpty) ∧
    (∀ (hdr : List Char) (n m : Nat),
      List.Pairwise (fun a b => a ≠ b)
        [msgTooShort, msgBadHeader hdr, msgNonHex, msgPartCount,
         msgCompNonHex, msgSaltLen n, msgHmacLen m, msgCtEmpty]) :=
  ⟨parse_ok_iff input,
   parse_err_tooShort input,
   parse_err_header input,
   parse_err_nonHex input,
   parse_err_partCount input,
   parse_err_compNonHex input,
   parse_err_saltLen input,
   parse_err_hmacLen input,
   parse_err_ctEmpty input,
   vaultMsgs_pairwise_ne⟩

/-- Witness for C3: the too-short clause at the concrete input `"x"`. -/
theorem c3_parse_validation_witness :
    (parseLines ['x']).length < 2 ∧
    parseVaultData ['x'] = Except.error msgTooShort :=
  ⟨by decide, (c3_parse_validation ['x']).2.1 (by decide)⟩

theorem crlfify_append (a b : List Char) :
    crlfify (a ++ b) = crlfify a ++ crlfify b := by
  induction a with
  | nil => rfl
  | cons c t ih =>
    by_cases hc : c = '\n'
    · simp only [List.cons_append, crlfify, if_pos hc, List.append_eq, ih]
    · simp only [List.cons_append, crlfify, if_neg hc, List.append_eq, ih]

theorem mem_crlfify (l : List Char) (c : Char) (h : c ∈ crlfify l) :
    c ∈ l ∨ c = '\r' := by
  induction l with
  | nil => simp [crlfify] at h
  | cons a t ih =>
    by_cases ha : a = '\n'
    · rw [crlfify, if_pos ha] at h
      rcases List.mem_cons.mp h with h | h
      · exact Or.inr h
      · rcases List.mem_cons.mp h with h | h
        · exact Or.inl (by simp [h, ha])
        · rcases ih h with h | h
          · exact Or.inl (by simp [h])
          · exact Or.inr h
    · rw [crlfify, if_neg ha] at h
      rcases List.mem_cons.mp h with h | h
      · exact Or.inl (by simp [h])
      · rcases ih h with h | h
        · exact Or.inl (by simp [h])
        · exact Or.inr h

theorem crlfify_allWs (l : List Char) (h : AllWs l) : AllWs (crlfify l) := by
  intro c hc
  rcases mem_crlfify l c hc with hm | hm
  · exact h c hm
  · subst hm
    decide

theorem crlfify_eq_nil_iff (l : List Char) : crlfify l = [] ↔ l = [] := by
  cases l with
  | nil => simp [crlfify]
  | cons a t =>
    constructor
    · intro h
      by_cases ha : a = '\n' <;> simp [crlfify, ha] at h
    · intro h
      simp at h

theorem crlfify_headD (l : List Char) (d : Char) (hl : l ≠ [])
    (hh : l.headD d ≠ '\n') : (crlfify l).headD d = l.headD d := by
  cases l with
  | nil => exact absurd rfl hl
  | cons a t =>
    have ha : a ≠ '\n' := hh
    rw [crlfify, if_neg ha]
    rfl

theorem crlfify_getLastD (l : List Char) (d : Char) (hl : l ≠ [])
    (hlast : l.getLastD d ≠ '\n') :
    (crlfify l).getLastD d = l.getLastD d := by
  induction l generalizing d with
  | nil => exact absurd rfl hl
  | cons a t ih =>
    cases ht : t with
    | nil =>
      subst ht
      have ha : a ≠ '\n' := by simpa using hlast
      rw [crlfify, if_neg ha]
      rfl
    | cons b u =>
      rw [← ht]
      have htne : t ≠ [] := by simp [ht]
      have hlast' : t.getLastD a ≠ '\n' := by
        rwa [List.getLastD_cons] at hlast
      have hlast'' : t.getLastD d ≠ '\n' := by
        rwa [getLastD_irrel t htne a d] at hlast'
      have hcrne : crlfify t ≠ [] := by
        intro h0
        exact htne ((crlfify_eq_nil_iff t).mp h0)
      by_cases ha : a = '\n'
      · rw [crlfify, if_pos ha, List.getLastD_cons, List.getLastD_cons]
        rw [getLastD_irrel (crlfify t) hcrne '\n' d]
        rw [ih d htne hlast'']
        rw [List.getLastD_cons]
        exact (getLastD_irrel t htne a d).symm ▸ rfl
      · rw [crlfify, if_neg ha, List.getLastD_cons]
        rw [getLastD_irrel (crlfify t) hcrne a d]
        rw [ih d htne hlast'']
        rw [List.getLastD_cons]
        exact getLastD_irrel t htne d a

theorem mapInit_cons_cons {α : Type} (f : α → α) (x y : α) (t : List α) :
    mapInit f (x :: y :: t) = f x :: mapInit f (y :: t) := rfl

theorem mapLast_cons_cons {α : Type} (f : α → α) (x y : α) (t : List α) :
    mapLast f (x :: y :: t) = x :: mapLast f (y :: t) := rfl

theorem splitSep_crlfify (x : List Char) :
    splitSep '\n' (crlfify x) =
      mapInit (fun l => l ++ ['\r']) (splitSep '\n' x) := by
  induction x with
  | nil => rfl
  | cons a t ih =>
    by_cases ha : a = '\n'
    · subst ha
      rw [crlfify, if_pos rfl]
      rw [show splitSep '\n' ('\r' :: '\n' :: crlfify t) =
          ['\r'] :: splitSep '\n' (crlfify t) from by
        simp [splitSep]]
      rw [ih]
      rw [show splitSep '\n' ('\n' :: t) = [] :: splitSep '\n' t from by
        simp [splitSep]]
      cases hsp : splitSep '\n' t with
      | nil => exact absurd hsp (splitSep_ne_nil '\n' t)
      | cons h' t' => rfl
    · rw [crlfify, if_neg ha]
      simp only [splitSep, if_neg ha, ih]
      cases hsp : splitSep '\n' t with
      | nil => exact absurd hsp (splitSep_ne_nil '\n' t)
      | cons h' t' =>
        cases t' with
        | nil => rfl
        | cons h'' t'' => rfl

theorem filter_flatten_mapInit (p : Char → Bool) (r : Char)
    (hr : p r = false) (ls : List (List Char)) :
    ((mapInit (fun l => l ++ [r]) ls).flatten).filter p =
      (ls.flatten).filter p := by
  induction ls with
  | nil => rfl
  | cons x xs ih =>
    cases xs with
    | nil => rfl
    | cons y ys =>
      rw [mapInit_cons_cons]
      simp only [List.flatten_cons, List.filter_append] at *
      rw [ih]
      simp [List.filter_append, hr]

theorem filter_flatten_mapLast (p : Char → Bool) (r : Char)
    (hr : p r = true) (ls : List (List Char)) (hne : ls ≠ []) :
    ((mapLast (fun l => l ++ [r]) ls).flatten).filter p =
      (ls.flatten).filter p ++ [r] := by
  induction ls with
  | nil => exact absurd rfl hne
  | cons x xs ih =>
    cases xs with
    | nil =>
      show ((x ++ [r]) ++ []).filter p = (x ++ []).filter p ++ [r]
      simp [List.filter_append, hr]
    | cons y ys =>
      rw [mapLast_cons_cons]
      simp only [List.flatten_cons, List.filter_append] at *
      rw [ih (by simp)]
      simp [List.append_assoc]

theorem normalizeHeader_append_cr (h : List Char) :
    normalizeHeader (h ++ ['\r']) = normalizeHeader h := by
  simp only [normalizeHeader, List.filter_append]
  simp

theorem mapInit_getD_zero (f : List Char → List Char)
    (L : List (List Char)) (hlen : 2 ≤ L.length) :
    (mapInit f L).getD 0 [] = f (L.getD 0 []) := by
  cases L with
  | nil => simp at hlen
  | cons x xs =>
    cases xs with
    | nil => simp at hlen
    | cons y ys => rfl

theorem mapInit_drop_one (f : List Char → List Char)
    (L : List (List Char)) (hlen : 2 ≤ L.length) :
    (mapInit f L).drop 1 = mapInit f (L.drop 1) := by
  cases L with
  | nil => simp at hlen
  | cons x xs =>
    cases xs with
    | nil => simp at hlen
    | cons y ys => rfl

theorem mapLast_getD_zero (f : List Char → List Char)
    (L : List (List Char)) (hlen : 2 ≤ L.length) :
    (mapLast f L).getD 0 [] = L.getD 0 [] := by
  cases L with
  | nil => simp at hlen
  | cons x xs =>
    cases xs with
    | nil => simp at hlen
    | cons y ys => rfl

theorem mapLast_drop_one (f : List Char → List Char)
    (L : List (List Char)) (hlen : 2 ≤ L.length) :
    (mapLast f L).drop 1 = mapLast f (L.drop 1) := by
  cases L with
  | nil => simp at hlen
  | cons x xs =>
    cases xs with
    | nil => simp at hlen
    | cons y ys => rfl

theorem not_ws_ne_nl (c : Char) (h : isJsWs c = false) : c ≠ '\n' := by
  intro hc
  subst hc
  simp [isJsWs] at h

theorem parseVaultData_congr_trim (e1 e2 : List Char)
    (h : jsTrim e1 = jsTrim e2) :
    parseVaultData e1 = parseVaultData e2 := by
  have hL : parseLines e1 = parseLines e2 := by
    rw [parseLines, parseLines, h]
  have hH : parseHexData e1 = parseHexData e2 := by
    rw [parseHexData, parseHexData, hL]
  have hP : parseParts e1 = parseParts e2 := by
    rw [parseParts, parseParts, hH]
  rw [parseVaultData_unfold e1, parseVaultData_unfold e2, hL, hH, hP]

theorem parseVaultData_wsPad (E pre suf : List Char)
    (hpre : AllWs pre) (hsuf : AllWs suf) :
    parseVaultData (pre ++ E ++ suf) = parseVaultData E :=
  parseVaultData_congr_trim _ _ (jsTrim_pad pre E suf hpre hsuf)

theorem jsTrim_ne_nil_of_wf (E : List Char) (h : 2 ≤ (parseLines E).length) :
    jsTrim E ≠ [] := by
  intro h0
  rw [parseLines, h0] at h
  simp [splitSep] at h

theorem jsTrim_crlfify (E : List Char) (hT : jsTrim E ≠ []) :
    jsTrim (crlfify E) = crlfify (jsTrim E) := by
  obtain ⟨pre, suf, hdec, hpre, hsuf⟩ := jsTrim_decomp E
  have hprops := jsTrim_props E
  rcases hprops with h0 | ⟨hhd, hlt⟩
  · exact absurd h0 hT
  have hcrl : crlfify E = crlfify pre ++ crlfify (jsTrim E) ++ crlfify suf := by
    conv_lhs => rw [hdec]
    rw [crlfify_append, crlfify_append]
  rw [hcrl, jsTrim_pad _ _ _ (crlfify_allWs pre hpre) (crlfify_allWs suf hsuf)]
  apply jsTrim_eq_self
  · intro hne
    rw [crlfify_headD (jsTrim E) '$' hT (not_ws_ne_nl _ hhd)]
    exact hhd
  · rw [crlfify_getLastD (jsTrim E) '$' hT (not_ws_ne_nl _ hlt)]
    exact hlt

theorem parseVaultData_crlfify (E : List Char) (s t c : List Nat)
    (hp : parseVaultData E = Except.ok (s, t, c)) :
    parseVaultData (crlfify E) = Except.ok (s, t, c) := by
  have wf : VaultWellFormed E := (parse_ok_iff E).mp ⟨s, t, c, hp⟩
  obtain ⟨w1, w2, w3, w4, w5, w6, w7, w8, w9, w10, w11⟩ := wf
  have hT : jsTrim E ≠ [] := jsTrim_ne_nil_of_wf E w1
  have hL' : parseLines (crlfify E) =
      mapInit (fun l => l ++ ['\r']) (parseLines E) := by
    rw [parseLines, jsTrim_crlfify E hT, splitSep_crlfify]
    rfl
  have hlen : (parseLines (crlfify E)).length = (parseLines E).length := by
    rw [hL', mapInit_length]
  have hgetD : (parseLines (crlfify E)).getD 0 [] =
      (parseLines E).getD 0 [] ++ ['\r'] := by
    rw [hL', mapInit_getD_zero _ _ w1]
  have hH' : parseHexData (crlfify E) = parseHexData E := by
    rw [parseHexData, parseHexData, hL', mapInit_drop_one _ _ w1]
    exact filter_flatten_mapInit _ '\r' (by decide) _
  have hP' : parseParts (crlfify E) = parseParts E := by
    rw [parseParts, parseParts, hH']
  have wf' : VaultWellFormed (crlfify E) := by
    refine ⟨by omega, ?_, by rw [hH']; exact w3, by rw [hH']; exact w4,
      by rw [hP']; exact w5, by rw [hP']; exact w6, by rw [hP']; exact w7,
      by rw [hP']; exact w8, by rw [hP']; exact w9, by rw [hP']; exact w10,
      by rw [hP']; exact w11⟩
    rw [hgetD, normalizeHeader_append_cr]
    exact w2
  obtain ⟨s', t', c', hp'⟩ := (parse_ok_iff (crlfify E)).mpr wf'
  obtain ⟨hs', ht', hc'⟩ := parse_ok_val _ _ _ _ hp'
  obtain ⟨hs, ht, hc⟩ := parse_ok_val _ _ _ _ hp
  rw [hp', hs', ht', hc', hP', ← hs, ← ht, ← hc]

theorem decryptVaultRawWith_congr
    (cipher : List Nat → List Nat → List Nat → List Nat)
    (e1 e2 : List Char) (pw : List Nat) (h1 : e1 ≠ []) (h2 : e2 ≠ [])
    (hp : parseVaultData e1 = parseVaultData e2) :
    decryptVaultRawWith cipher e1 pw = decryptVaultRawWith cipher e2 pw := by
  simp only [decryptVaultRawWith, List.isEmpty_iff, h1, h2, if_false, hp]

theorem decryptVaultString_congr (e1 e2 : List Char) (pw : List Nat)
    (h1 : e1 ≠ []) (h2 : e2 ≠ [])
    (hp : parseVaultData e1 = parseVaultData e2) :
    decryptVaultString e1 pw = decryptVaultString e2 pw := by
  simp only [decryptVaultString, decryptVaultStringWith,
    decryptVaultRawWith_congr aesCtrTransform e1 e2 pw h1 h2 hp]

theorem decryptVaultString_ok_inversion (E : List Char) (pw pt : List Nat)
    (h : decryptVaultString E pw = Except.ok pt) :
    E ≠ [] ∧ pw ≠ [] ∧ ∃ s t c, parseVaultData E = Except.ok (s, t, c) := by
  simp only [decryptVaultString, decryptVaultStringWith,
    decryptVaultRawWith] at h
  by_cases hE : E.isEmpty
  · rw [if_pos hE] at h
    simp at h
  · rw [if_neg hE] at h
    by_cases hpw : pw.isEmpty
    · rw [if_pos hpw] at h
      simp at h
    · rw [if_neg hpw] at h
      refine ⟨by simpa [List.isEmpty_iff] using hE,
        by simpa [List.isEmpty_iff] using hpw, ?_⟩
      cases hparse : parseVaultData E with
      | error m =>
        rw [hparse] at h
        simp at h
      | ok v =>
        obtain ⟨s, t, c⟩ := v
        exact ⟨s, t, c, rfl⟩

/-- C9: an envelope that decrypts successfully still decrypts to the same
plaintext after surrounding it with whitespace or after replacing every
`"\n"` with `"\r\n"`. -/
theorem c9_whitespace_crlf_tolerance (E pre suf : List Char)
    (pw pt : List Nat) (hpre : AllWs pre) (hsuf : AllWs suf)
    (h : decryptVaultString E pw = Except.ok pt) :
    decryptVaultString (pre ++ E ++ suf) pw = Except.ok pt ∧
    decryptVaultString (crlfify E) pw = Except.ok pt := by
  obtain ⟨hE, hpw, s, t, c, hp⟩ := decryptVaultString_ok_inversion E pw pt h
  constructor
  · rw [decryptVaultString_congr (pre ++ E ++ suf) E pw (by simp [hE]) hE
      (parseVaultData_wsPad E pre suf hpre hsuf)]
    exact h
  · rw [decryptVaultString_congr (crlfify E) E pw
      (fun h0 => hE ((crlfify_eq_nil_iff E).mp h0)) hE
      (by rw [parseVaultData_crlfify E s t c hp, hp])]
    exact h

/-- Witness for C9 at a concrete envelope produced by the encryptor. -/
theorem c9_whitespace_crlf_tolerance_witness :
    (AllWs [' '] ∧ AllWs ['\n', '\t'] ∧
     decryptVaultString (formatVaultData (List.range 32)
        (encTag (List.range 32) [5] [7])
        (encCiphertext (List.range 32) [5] [7])) [7] = Except.ok [5]) ∧
    (decryptVaultString ([' '] ++ formatVaultData (List.range 32)
        (encTag (List.range 32) [5] [7])
        (encCiphertext (List.range 32) [5] [7]) ++ ['\n', '\t']) [7] =
      Except.ok [5] ∧
     decryptVaultString (crlfify (formatVaultData (List.range 32)
        (encTag (List.range 32) [5] [7])
        (encCiphertext (List.range 32) [5] [7]))) [7] = Except.ok [5]) :=
  ⟨⟨by decide, by decide,
    decryptVaultString_formatVaultData (List.range 32) [5] [7] (by decide)
      (by decide) (by decide) (by decide) (by decide)⟩,
   c9_whitespace_crlf_tolerance _ [' '] ['\n', '\t'] [7] [5] (by decide)
     (by decide)
     (decryptVaultString_formatVaultData (List.range 32) [5] [7] (by decide)
       (by decide) (by decide) (by decide) (by decide))⟩

/-- C10 (amended): `parseVaultData` does not reject a body whose joined hex
string has odd length — decoding silently discards the trailing unpaired
digit — so for every valid envelope equal to its own trim whose joined body
hex string has even length, appending one extra hex digit to its final body
line yields a different envelope string that still parses to the same salt,
tag and ciphertext and decrypts identically under the same password. -/
theorem c10_odd_hex_digit_tolerated (E : List Char) (pw s t c : List Nat)
    (d : Char) (htrim : jsTrim E = E) (hd : isHexChar d = true)
    (heven : (parseHexData E).length % 2 = 0)
    (hp : parseVaultData E = Except.ok (s, t, c)) :
    parseVaultData (E ++ [d]) = Except.ok (s, t, c) ∧
    E ++ [d] ≠ E ∧
    decryptVaultString (E ++ [d]) pw = decryptVaultString E pw := by
  have wf : VaultWellFormed E := (parse_ok_iff E).mp ⟨s, t, c, hp⟩
  obtain ⟨w1, w2, w3, w4, w5, w6, w7, w8, w9, w10, w11⟩ := wf
  have hEne : E ≠ [] := by
    intro h0
    exact jsTrim_ne_nil_of_wf E w1 (by rw [← htrim, h0]; rfl)
  have hprops := jsTrim_props E
  rw [htrim] at hprops
  rcases hprops with h0 | ⟨hhd, hlt⟩
  · exact absurd h0 hEne
  have htrim' : jsTrim (E ++ [d]) = E ++ [d] := by
    apply jsTrim_eq_self
    · intro _
      rw [headD_append_of_ne_nil E [d] '$' hEne]
      exact hhd
    · rw [getLastD_append_right E [d] '$' (by simp)]
      exact hexChar_not_ws d hd
  have hL' : parseLines (E ++ [d]) =
      mapLast (fun l => l ++ [d]) (parseLines E) := by
    rw [parseLines, htrim', splitSep_append_single '\n' d E
      (hexChar_ne_nl d hd), parseLines, htrim]
  have hlen : (parseLines (E ++ [d])).length = (parseLines E).length := by
    rw [hL', mapLast_length]
  have hgetD : (parseLines (E ++ [d])).getD 0 [] = (parseLines E).getD 0 [] := by
    rw [hL', mapLast_getD_zero _ _ w1]
  have hH' : parseHexData (E ++ [d]) = parseHexData E ++ [d] := by
    rw [parseHexData, parseHexData, hL', mapLast_drop_one _ _ w1]
    apply filter_flatten_mapLast
    · simp [hexChar_not_ws d hd]
    · intro h0
      have := congrArg List.length h0
      simp only [List.length_drop, List.length_nil] at this
      omega
  have hP' : parseParts (E ++ [d]) = parseParts E := by
    rw [parseParts, parseParts, hH',
      hexDecodePairsC_append_single _ d heven]
  have wf' : VaultWellFormed (E ++ [d]) := by
    refine ⟨by omega, by rw [hgetD]; exact w2, by simp [hH'],
      ?_, by rw [hP']; exact w5, by rw [hP']; exact w6,
      by rw [hP']; exact w7, by rw [hP']; exact w8, by rw [hP']; exact w9,
      by rw [hP']; exact w10, by rw [hP']; exact w11⟩
    intro ch hch
    rw [hH'] at hch
    rcases List.mem_append.mp hch with hch | hch
    · exact w4 ch hch
    · rw [List.mem_singleton] at hch
      subst hch
      exact hd
  obtain ⟨s', t', c', hp'⟩ := (parse_ok_iff (E ++ [d])).mpr wf'
  obtain ⟨hs', ht', hc'⟩ := parse_ok_val _ _ _ _ hp'
  obtain ⟨hs, ht, hc⟩ := parse_ok_val _ _ _ _ hp
  have hpd : parseVaultData (E ++ [d]) = Except.ok (s, t, c) := by
    rw [hp', hs', ht', hc', hP', ← hs, ← ht, ← hc]
  refine ⟨hpd, ?_, ?_⟩
  · intro h0
    have := congrArg List.length h0
    simp at this
  · exact decryptVaultString_congr (E ++ [d]) E pw (by simp [hEne]) hEne
      (by rw [hpd, hp])

set_option maxRecDepth 200000 in
/-- Counterexample to C10 as stated: the envelope below is valid (it parses;
its joined body hex string has odd length, the trailing digit being silently
discarded), yet appending one extra hex digit `'0'` to its final body line
does not parse to the same salt, tag and ciphertext — it is rejected,
because the decoded extra byte `0x00` lands in the ciphertext component and
fails the component hex check. -/
theorem c10_counterexample :
    parseVaultData ("$ANSIBLE_VAULT;1.1;AES256".toList ++
        '\n' :: (bodyHexData (List.range 32) (List.replicate 32 0) [1]
          ++ ['0'])) =
      Except.ok (List.range 32, List.replicate 32 0, [1]) ∧
    parseVaultData (("$ANSIBLE_VAULT;1.1;AES256".toList ++
        '\n' :: (bodyHexData (List.range 32) (List.replicate 32 0) [1]
          ++ ['0'])) ++ ['0']) =
      Except.error msgCompNonHex := by
  constructor
  · decide
  · decide

set_option maxRecDepth 200000 in
/-- Witness for the amended C10 at a concrete even-body envelope. -/
theorem c10_odd_hex_digit_tolerated_witness :
    (jsTrim ("$ANSIBLE_VAULT;1.1;AES256".toList ++
        '\n' :: bodyHexData (List.range 32) (List.replicate 32 0) [1]) =
      ("$ANSIBLE_VAULT;1.1;AES256".toList ++
        '\n' :: bodyHexData (List.range 32) (List.replicate 32 0) [1]) ∧
     isHexChar 'a' = true ∧
     (parseHexData ("$ANSIBLE_VAULT;1.1;AES256".toList ++
        '\n' :: bodyHexData (List.range 32) (List.replicate 32 0) [1])).length
          % 2 = 0 ∧
     parseVaultData ("$ANSIBLE_VAULT;1.1;AES256".toList ++
        '\n' :: bodyHexData (List.range 32) (List.replicate 32 0) [1]) =
      Except.ok (List.range 32, List.replicate 32 0, [1])) ∧
    (parseVaultData (("$ANSIBLE_VAULT;1.1;AES256".toList ++
        '\n' :: bodyHexData (List.range 32) (List.replicate 32 0) [1]) ++
          ['a']) = Except.ok (List.range 32, List.replicate 32 0, [1]) ∧
     ("$ANSIBLE_VAULT;1.1;AES256".toList ++
        '\n' :: bodyHexData (List.range 32) (List.replicate 32 0) [1]) ++
          ['a'] ≠
       ("$ANSIBLE_VAULT;1.1;AES256".toList ++
        '\n' :: bodyHexData (List.range 32) (List.replicate 32 0) [1]) ∧
     decryptVaultString (("$ANSIBLE_VAULT;1.1;AES256".toList ++
        '\n' :: bodyHexData (List.range 32) (List.replicate 32 0) [1]) ++
          ['a']) [7] =
       decryptVaultString ("$ANSIBLE_VAULT;1.1;AES256".toList ++
        '\n' :: bodyHexData (List.range 32) (List.replicate 32 0) [1]) [7]) :=
  ⟨⟨by decide, by decide, by decide, by decide⟩,
   c10_odd_hex_digit_tolerated _ [7] (List.range 32) (List.replicate 32 0)
     [1] 'a' (by decide) (by decide) (by decide) (by decide)⟩
